import Mathlib

/-!
A shallow embedding of the QOI ("Quite OK Image") single-file codec
(`qoi.h`: `qoi_encode` / `qoi_decode`) and proofs about it.

Byte buffers are modelled as `List Nat`; every load of an `unsigned char`
is normalised with `% 256`, matching the C type.  Machine-integer cursors
and sizes are modelled as `Nat` (the C code uses non-negative `int`
values throughout the regions the theorems speak about).  Signed `char`
arithmetic on pixel deltas is modelled by wrap-around subtraction modulo
256 followed by reinterpretation into `[-128, 127]` (`toSigned`).
-/

namespace Qoi

/-- One RGBA pixel: the four `unsigned char` components of `qoi_rgba_t`.
The C code compares pixels through the packed 32-bit union member
`px.v`; for byte-valued components that equals componentwise equality,
which is how it is modelled here. -/
structure Rgba where
  r : Nat
  g : Nat
  b : Nat
  a : Nat
deriving DecidableEq, Repr


/-- All four components are byte values. -/
def Rgba.Bounded (c : Rgba) : Prop :=
  c.r < 256 ∧ c.g < 256 ∧ c.b < 256 ∧ c.a < 256


instance (c : Rgba) : Decidable c.Bounded := by
  unfold Rgba.Bounded; infer_instance


/-- The zero pixel `{r = 0, g = 0, b = 0, a = 0}`: the initial `px_prev`
of the encoder, the initial `px` of the decoder, and the content of
every slot of the zero-initialised `index[64]` array. -/
def zeroPx : Rgba := ⟨0, 0, 0, 0⟩


/-- `QOI_COLOR_HASH(C) % 64` — the hash used for the 64-slot index. -/
def qoiHash (c : Rgba) : Nat :=
  (c.r * 3 + c.g * 5 + c.b * 7 + c.a * 11) % 64


/-- Wrap-around subtraction of byte values: `(x - y) mod 256`, the value
of the C expression `(unsigned char)x - (unsigned char)y` stored into a
`char`, read back as an unsigned residue. -/
def sub8 (x y : Nat) : Nat :=
  (x % 256 + 256 - y % 256) % 256


/-- Reinterpret a residue mod 256 as a signed `char` value in
`[-128, 127]`. -/
def toSigned (v : Nat) : Int :=
  if v % 256 < 128 then (v % 256 : Int) else (v % 256 : Int) - 256


/-- The 64-entry index array, modelled as a total function; slots other
than `0..63` are never accessed by the code. -/
def updIdx (f : Nat → Rgba) (i : Nat) (v : Rgba) : Nat → Rgba :=
  fun j => if j = i then v else f j


/-- `index` function with all slots holding the zero pixel
(`qoi_rgba_t index[64] = {0}`). -/
def zeroIdx : Nat → Rgba := fun _ => zeroPx


/-- Big-endian serialisation of a 32-bit value: `qoi_write_32`. -/
def be32 (v : Nat) : List Nat :=
  [v / 2 ^ 24 % 256, v / 2 ^ 16 % 256, v / 2 ^ 8 % 256, v % 256]


/-- Big-endian load of a 32-bit value at offset `p`: `qoi_read_32`. -/
def read32 (bytes : List Nat) (p : Nat) : Nat :=
  (bytes.getD p 0 % 256) * 2 ^ 24 + (bytes.getD (p + 1) 0 % 256) * 2 ^ 16 +
    (bytes.getD (p + 2) 0 % 256) * 2 ^ 8 + bytes.getD (p + 3) 0 % 256


/-- `QOI_MAGIC` = `'q' << 24 | 'o' << 16 | 'i' << 8 | 'f'`. -/
def qoiMagic : Nat := 0x716f6966


/-- The `qoi_desc` struct. `width`/`height` are `unsigned int` (32-bit),
`channels`/`colorspace` are `unsigned char`. -/
structure QoiDesc where
  width : Nat
  height : Nat
  channels : Nat
  colorspace : Nat
deriving DecidableEq, Repr


/-! ## Encoder -/

/-- Encoder loop state: the `index[64]` array, the pending `run`
counter, `px_prev`, and the bytes emitted so far after the header
(`bytes` / `p` of `qoi_encode`, header excluded). -/
structure EncState where
  index : Nat → Rgba
  run : Nat
  px_prev : Rgba
  out : List Nat


/-- One iteration of the pixel loop of `qoi_encode` (lines 398-469 of
`qoi.h`), emitting raw bytes.  `isLast` is `px_pos == px_end`, which
holds exactly on the final iteration since `px_len` is a multiple of
`channels`. -/
def encByteStep (px : Rgba) (isLast : Bool) (s : EncState) : EncState :=
  if px = s.px_prev then
    if s.run + 1 = 62 ∨ isLast = true then
      ⟨s.index, 0, px, s.out ++ [192 + (s.run + 1 - 1)]⟩
    else
      ⟨s.index, s.run + 1, px, s.out⟩
  else
    let flushed : List Nat := if 0 < s.run then [192 + (s.run - 1)] else []
    let ip := qoiHash px
    if s.index ip = px then
      ⟨s.index, 0, px, s.out ++ flushed ++ [ip]⟩
    else
      let idx' := updIdx s.index ip px
      let vr := toSigned (sub8 px.r s.px_prev.r)
      let vg := toSigned (sub8 px.g s.px_prev.g)
      let vb := toSigned (sub8 px.b s.px_prev.b)
      let vg_r := toSigned (sub8 (sub8 px.r s.px_prev.r) (sub8 px.g s.px_prev.g))
      let vg_b := toSigned (sub8 (sub8 px.b s.px_prev.b) (sub8 px.g s.px_prev.g))
      if px.a = s.px_prev.a then
        if -3 < vr ∧ vr < 2 ∧ -3 < vg ∧ vg < 2 ∧ -3 < vb ∧ vb < 2 then
          ⟨idx', 0, px, s.out ++ flushed ++
            [64 + (vr + 2).toNat * 16 + (vg + 2).toNat * 4 + (vb + 2).toNat]⟩
        else if -9 < vg_r ∧ vg_r < 8 ∧ -33 < vg ∧ vg < 32 ∧ -9 < vg_b ∧ vg_b < 8 then
          ⟨idx', 0, px, s.out ++ flushed ++
            [128 + (vg + 32).toNat, (vg_r + 8).toNat * 16 + (vg_b + 8).toNat]⟩
        else
          ⟨idx', 0, px, s.out ++ flushed ++ [254, px.r, px.g, px.b]⟩
      else
        ⟨idx', 0, px, s.out ++ flushed ++ [255, px.r, px.g, px.b, px.a]⟩


/-- Load the pixel at byte offset `pos`.  With `channels == 4` all four
components are read; with `channels == 3` only r, g, b are read and the
alpha component of the loop variable `px` keeps its previous value,
which always equals `px_prev.a`. -/
def readPxAt (data : List Nat) (channels pos : Nat) (prevA : Nat) : Rgba :=
  if channels = 4 then
    ⟨data.getD pos 0 % 256, data.getD (pos + 1) 0 % 256,
      data.getD (pos + 2) 0 % 256, data.getD (pos + 3) 0 % 256⟩
  else
    ⟨data.getD pos 0 % 256, data.getD (pos + 1) 0 % 256,
      data.getD (pos + 2) 0 % 256, prevA⟩


/-- The pixel loop of `qoi_encode`, by remaining iteration count `n`
(the loop runs `width * height` times, `px_pos` advancing by
`channels`). -/
def encodeLoop (data : List Nat) (channels : Nat) :
    Nat → Nat → EncState → EncState
  | 0, _, s => s
  | n + 1, pos, s =>
      encodeLoop data channels n (pos + channels)
        (encByteStep (readPxAt data channels pos s.px_prev.a) (decide (n = 0)) s)


/-- `qoi_encode`: `none` models the `NULL` return on an invalid
descriptor; the source check is `desc->colorspace > 2` (not `> 1`).
On success the returned list is the full output buffer: 14-byte header,
chunk stream, 8-byte trailer; `*out_len` is its length. -/
def qoi_encode (data : List Nat) (desc : QoiDesc) : Option (List Nat) :=
  if desc.width = 0 ∨ desc.height = 0 ∨ desc.channels < 3 ∨ 4 < desc.channels ∨
      2 < desc.colorspace then
    none
  else
    let header := [113, 111, 105, 102] ++ be32 desc.width ++ be32 desc.height ++
      [desc.channels, desc.colorspace]
    let s := encodeLoop data desc.channels (desc.width * desc.height) 0
      ⟨zeroIdx, 0, zeroPx, []⟩
    some (header ++ s.out ++ List.replicate 8 0)


/-! ## Decoder -/

/-- Decoder loop state of `qoi_decode`: the `index[64]` array, the
current pixel `px`, the remaining `run` count, and the byte cursor
`p`. -/
structure DecState where
  index : Nat → Rgba
  px : Rgba
  run : Nat
  p : Nat


/-- The initial decoder state (after header parsing): zeroed index,
`px = {0,0,0,0}`, `run = 0`, cursor at byte 14. -/
def initDecState : DecState := ⟨zeroIdx, zeroPx, 0, 14⟩


/-- One iteration of the pixel loop of `qoi_decode` (lines 521-559 of
`qoi.h`).  The pixel written to the output buffer by this iteration is
`px` of the returned state. -/
def decodeStep (bytes : List Nat) (chunksLen : Nat) (s : DecState) : DecState :=
  if 0 < s.run then
    ⟨s.index, s.px, s.run - 1, s.p⟩
  else if s.p < chunksLen then
    let b1 := bytes.getD s.p 0 % 256
    if b1 = 254 then
      let px : Rgba := ⟨bytes.getD (s.p + 1) 0 % 256, bytes.getD (s.p + 2) 0 % 256,
        bytes.getD (s.p + 3) 0 % 256, s.px.a⟩
      ⟨updIdx s.index (qoiHash px) px, px, 0, s.p + 4⟩
    else if b1 = 255 then
      let px : Rgba := ⟨bytes.getD (s.p + 1) 0 % 256, bytes.getD (s.p + 2) 0 % 256,
        bytes.getD (s.p + 3) 0 % 256, bytes.getD (s.p + 4) 0 % 256⟩
      ⟨updIdx s.index (qoiHash px) px, px, 0, s.p + 5⟩
    else if b1 / 64 = 0 then
      let px := s.index b1
      ⟨updIdx s.index (qoiHash px) px, px, 0, s.p + 1⟩
    else if b1 / 64 = 1 then
      let px : Rgba := ⟨(s.px.r + b1 / 16 % 4 + 254) % 256,
        (s.px.g + b1 / 4 % 4 + 254) % 256, (s.px.b + b1 % 4 + 254) % 256, s.px.a⟩
      ⟨updIdx s.index (qoiHash px) px, px, 0, s.p + 1⟩
    else if b1 / 64 = 2 then
      let b2 := bytes.getD (s.p + 1) 0 % 256
      let px : Rgba := ⟨(s.px.r + b1 % 64 + b2 / 16 % 16 + 216) % 256,
        (s.px.g + b1 % 64 + 224) % 256,
        (s.px.b + b1 % 64 + b2 % 16 + 216) % 256, s.px.a⟩
      ⟨updIdx s.index (qoiHash px) px, px, 0, s.p + 2⟩
    else
      ⟨updIdx s.index (qoiHash s.px) s.px, s.px, b1 % 64, s.p + 1⟩
  else
    s


/-- The pixel loop of `qoi_decode`, by remaining pixel count; returns
the reconstructed pixels in order together with the final state. -/
def decodeLoop (bytes : List Nat) (chunksLen : Nat) :
    Nat → DecState → List Rgba × DecState
  | 0, s => ([], s)
  | n + 1, s =>
      let s' := decodeStep bytes chunksLen s
      let r := decodeLoop bytes chunksLen n s'
      (s'.px :: r.1, r.2)


/-- Write the pixel list to the output buffer: 4 bytes per pixel when
`channels == 4`, else 3 bytes per pixel. -/
def flattenPx (channels : Nat) : List Rgba → List Nat
  | [] => []
  | px :: l =>
      (if channels = 4 then [px.r, px.g, px.b, px.a] else [px.r, px.g, px.b]) ++
        flattenPx channels l


/-- `qoi_decode`: `none` models the `NULL` returns (bad `channels`
argument, `size < QOI_HEADER_SIZE + QOI_PADDING`, header validation
failure — the source accepts `colorspace <= 2`).  `size` is the length
of `data`. -/
def qoi_decode (data : List Nat) (channels : Nat) :
    Option (QoiDesc × List Nat) :=
  if ¬(channels = 0 ∨ channels = 3 ∨ channels = 4) then none
  else if data.length < 14 + 8 then none
  else
    let headerMagic := read32 data 0
    let w := read32 data 4
    let h := read32 data 8
    let chB := data.getD 12 0 % 256
    let cs := data.getD 13 0 % 256
    if w = 0 ∨ h = 0 ∨ chB < 3 ∨ 4 < chB ∨ 2 < cs ∨ headerMagic ≠ qoiMagic then
      none
    else
      let ch := if channels = 0 then chB else channels
      let r := decodeLoop data (data.length - 8) (w * h) initDecState
      some (⟨w, h, chB, cs⟩, flattenPx ch r.1)


/-! ## Chunk-level view of the encoder

The byte-level loop above is the faithful embedding; the following
chunk-level restatement of the very same branch structure is used for
the proofs, connected to the byte level by `encodeLoop_eq_chunks`
below. -/

/-- The six chunk forms.  Fields hold the values exactly as they are
packed into the emitted bytes (biases already applied). -/
inductive Chunk where
  | index (i : Nat)
  | diff (dr dg db : Nat)
  | luma (dg drdg dbdg : Nat)
  | rgb (r g b : Nat)
  | rgba (r g b a : Nat)
  | run (k : Nat)
deriving DecidableEq, Repr


/-- The bytes of one chunk. -/
def serializeChunk : Chunk → List Nat
  | .index i => [i]
  | .diff dr dg db => [64 + dr * 16 + dg * 4 + db]
  | .luma dg drdg dbdg => [128 + dg, drdg * 16 + dbdg]
  | .rgb r g b => [254, r, g, b]
  | .rgba r g b a => [255, r, g, b, a]
  | .run k => [192 + k]


/-- The bytes of a chunk sequence. -/
def serializeChunks (cs : List Chunk) : List Nat :=
  cs.foldr (fun c acc => serializeChunk c ++ acc) []


/-- Encoder predictor state without the output buffer. -/
structure EncCore where
  index : Nat → Rgba
  run : Nat
  px_prev : Rgba


/-- One iteration of the encoder pixel loop, emitting chunks; mirrors
`encByteStep` branch for branch. -/
def encStep (px : Rgba) (isLast : Bool) (c : EncCore) : EncCore × List Chunk :=
  if px = c.px_prev then
    if c.run + 1 = 62 ∨ isLast = true then
      (⟨c.index, 0, px⟩, [.run (c.run + 1 - 1)])
    else
      (⟨c.index, c.run + 1, px⟩, [])
  else
    let flushed : List Chunk := if 0 < c.run then [.run (c.run - 1)] else []
    let ip := qoiHash px
    if c.index ip = px then
      (⟨c.index, 0, px⟩, flushed ++ [.index ip])
    else
      let idx' := updIdx c.index ip px
      let vr := toSigned (sub8 px.r c.px_prev.r)
      let vg := toSigned (sub8 px.g c.px_prev.g)
      let vb := toSigned (sub8 px.b c.px_prev.b)
      let vg_r := toSigned (sub8 (sub8 px.r c.px_prev.r) (sub8 px.g c.px_prev.g))
      let vg_b := toSigned (sub8 (sub8 px.b c.px_prev.b) (sub8 px.g c.px_prev.g))
      if px.a = c.px_prev.a then
        if -3 < vr ∧ vr < 2 ∧ -3 < vg ∧ vg < 2 ∧ -3 < vb ∧ vb < 2 then
          (⟨idx', 0, px⟩, flushed ++ [.diff (vr + 2).toNat (vg + 2).toNat (vb + 2).toNat])
        else if -9 < vg_r ∧ vg_r < 8 ∧ -33 < vg ∧ vg < 32 ∧ -9 < vg_b ∧ vg_b < 8 then
          (⟨idx', 0, px⟩, flushed ++ [.luma (vg + 32).toNat (vg_r + 8).toNat (vg_b + 8).toNat])
        else
          (⟨idx', 0, px⟩, flushed ++ [.rgb px.r px.g px.b])
      else
        (⟨idx', 0, px⟩, flushed ++ [.rgba px.r px.g px.b px.a])


/-- Chunk-level encoder over an explicit pixel list. -/
def encodePixelsC : List Rgba → EncCore → EncCore × List Chunk
  | [], c => (c, [])
  | px :: l, c =>
      let r1 := encStep px l.isEmpty c
      let r2 := encodePixelsC l r1.1
      (r2.1, r1.2 ++ r2.2)


/-- The `n` pixels read by the encoder starting at byte offset `pos`,
with `a` the alpha value carried by the loop variable (relevant for
`channels = 3`). -/
def pixelsFrom (data : List Nat) (channels : Nat) : Nat → Nat → Nat → List Rgba
  | 0, _, _ => []
  | n + 1, pos, a =>
      let px := readPxAt data channels pos a
      px :: pixelsFrom data channels n (pos + channels) px.a


/-! ## Consuming view of the decoder -/

/-- Decoder predictor state without cursor and run. -/
structure DCore where
  index : Nat → Rgba
  px : Rgba


/-- The decoder pixel loop, reading from the front of `stream`, with
`budget = chunksLen - p` bytes of chunk data remaining.  Mirrors
`decodeStep`/`decodeLoop`; connected to them by `decodeLoop_eq_aux`
below.  Returns the produced pixels, the final `run` and the final
core state. -/
def decodeAux : List Nat → Nat → Nat → Nat → DCore → List Rgba × Nat × DCore
  | _, _, 0, run, c => ([], run, c)
  | stream, budget, n + 1, run, c =>
      if 0 < run then
        let r := decodeAux stream budget n (run - 1) c
        (c.px :: r.1, r.2)
      else if 0 < budget then
        let b1 := stream.getD 0 0 % 256
        if b1 = 254 then
          let px : Rgba := ⟨stream.getD 1 0 % 256, stream.getD 2 0 % 256,
            stream.getD 3 0 % 256, c.px.a⟩
          let r := decodeAux (stream.drop 4) (budget - 4) n 0 ⟨updIdx c.index (qoiHash px) px, px⟩
          (px :: r.1, r.2)
        else if b1 = 255 then
          let px : Rgba := ⟨stream.getD 1 0 % 256, stream.getD 2 0 % 256,
            stream.getD 3 0 % 256, stream.getD 4 0 % 256⟩
          let r := decodeAux (stream.drop 5) (budget - 5) n 0 ⟨updIdx c.index (qoiHash px) px, px⟩
          (px :: r.1, r.2)
        else if b1 / 64 = 0 then
          let px := c.index b1
          let r := decodeAux (stream.drop 1) (budget - 1) n 0 ⟨updIdx c.index (qoiHash px) px, px⟩
          (px :: r.1, r.2)
        else if b1 / 64 = 1 then
          let px : Rgba := ⟨(c.px.r + b1 / 16 % 4 + 254) % 256,
            (c.px.g + b1 / 4 % 4 + 254) % 256, (c.px.b + b1 % 4 + 254) % 256, c.px.a⟩
          let r := decodeAux (stream.drop 1) (budget - 1) n 0 ⟨updIdx c.index (qoiHash px) px, px⟩
          (px :: r.1, r.2)
        else if b1 / 64 = 2 then
          let b2 := stream.getD 1 0 % 256
          let px : Rgba := ⟨(c.px.r + b1 % 64 + b2 / 16 % 16 + 216) % 256,
            (c.px.g + b1 % 64 + 224) % 256,
            (c.px.b + b1 % 64 + b2 % 16 + 216) % 256, c.px.a⟩
          let r := decodeAux (stream.drop 2) (budget - 2) n 0 ⟨updIdx c.index (qoiHash px) px, px⟩
          (px :: r.1, r.2)
        else
          let r := decodeAux (stream.drop 1) (budget - 1) n (b1 % 64)
            ⟨updIdx c.index (qoiHash c.px) c.px, c.px⟩
          (c.px :: r.1, r.2)
      else
        let r := decodeAux stream budget n run c
        (c.px :: r.1, r.2)


/-! ## Encoder: run blocks -/

/-- Length of the longest prefix of `l` consisting of copies of `c`. -/
def leadCount (c : Rgba) : List Rgba → Nat
  | [] => 0
  | x :: xs => if x = c then leadCount c xs + 1 else 0


/-- The simulation invariant: after encoding `L` from predictor state
`(idx, run 0, pv)` producing core `co` and chunks `cs`, the decoder run
on the serialised chunks from core `(idx, pv)` reproduces `L` and ends
in core `(co.index, co.px_prev)` with the byte cursor exactly past the
chunks. -/
def SimOk (L : List Rgba) (idx : Nat → Rgba) (pv : Rgba)
    (co : EncCore) (cs : List Chunk) : Prop :=
  co.run = 0 ∧ (∀ i, (co.index i).Bounded) ∧ co.px_prev.Bounded ∧
  co.index (qoiHash co.px_prev) = co.px_prev ∧
  ∀ (S : List Nat) (b n : Nat),
    decodeAux (serializeChunks cs ++ S) ((serializeChunks cs).length + b)
        (L.length + n) 0 ⟨idx, pv⟩ =
      (L ++ (decodeAux S b n 0 ⟨co.index, co.px_prev⟩).1,
        (decodeAux S b n 0 ⟨co.index, co.px_prev⟩).2)


/-! ## Run-chunk bounds (claim C6) -/

/-- The chunk stream of `qoi_encode`, at chunk level. -/
def qoi_encode_chunks (data : List Nat) (desc : QoiDesc) : List Chunk :=
  (encodePixelsC (pixelsFrom data desc.channels (desc.width * desc.height) 0 0)
    ⟨zeroIdx, 0, zeroPx⟩).2




/-! ## Decoder read bounds (claim C10) -/

/-- The input positions read by one iteration of the decoder loop:
the first chunk byte at `p` plus the extra payload bytes of RGB (3),
RGBA (4) and LUMA (1) chunks.  Mirrors `decodeStep` read for read. -/
def stepReads (bytes : List Nat) (chunksLen : Nat) (s : DecState) : List Nat :=
  if 0 < s.run then []
  else if s.p < chunksLen then
    let b1 := bytes.getD s.p 0 % 256
    if b1 = 254 then [s.p, s.p + 1, s.p + 2, s.p + 3]
    else if b1 = 255 then [s.p, s.p + 1, s.p + 2, s.p + 3, s.p + 4]
    else if b1 / 64 = 2 then [s.p, s.p + 1]
    else [s.p]
  else []


/-- All positions read by the decoder pixel loop. -/
def loopReads (bytes : List Nat) (chunksLen : Nat) : Nat → DecState → List Nat
  | 0, _ => []
  | n + 1, s => stepReads bytes chunksLen s ++
      loopReads bytes chunksLen n (decodeStep bytes chunksLen s)


/-! ## Zero-run analysis of the encoded stream (claim C5) -/

/-- One step of a zero-run scan: `s.1` is the length of the current
trailing run of zero bytes, `s.2` the longest zero run seen so far. -/
def zstep (s : Nat × Nat) (x : Nat) : Nat × Nat :=
  if x = 0 then (s.1 + 1, max (s.1 + 1) s.2) else (0, s.2)


/-- Longest zero-byte run of a byte list (with the trailing run). -/
def zscan (l : List Nat) : Nat × Nat :=
  l.foldl zstep (0, 0)


/-- The zero-run invariant carried along the encoder: the byte stream
scanned so far has no zero run longer than 6, its trailing zero run has
length at most 4, and a trailing run of exactly 4 can only follow an
all-zero RGBA chunk, after which slot 0 of the index holds
`px_prev = (0,0,0,0)`. -/
def ZInv (co : EncCore) (zs : Nat × Nat) : Prop :=
  zs.2 ≤ 6 ∧ zs.1 ≤ 4 ∧ (zs.1 = 4 → co.index 0 = co.px_prev)


theorem qoiHash_lt (c : Rgba) : qoiHash c < 64 :=
  Nat.mod_lt _ (by omega)


theorem sub8_lt (x y : Nat) : sub8 x y < 256 :=
  Nat.mod_lt _ (by omega)


theorem updIdx_self (f : Nat → Rgba) (i : Nat) (v : Rgba) :
    updIdx f i v i = v := by simp [updIdx]


theorem updIdx_eq_of_hit (f : Nat → Rgba) (i : Nat) (v : Rgba)
    (h : f i = v) : updIdx f i v = f := by
  funext j
  by_cases hj : j = i <;> simp [updIdx, hj, h.symm]


/-! ## Basic lemmas -/

theorem serializeChunks_nil : serializeChunks [] = [] := rfl


theorem serializeChunks_cons (c : Chunk) (cs : List Chunk) :
    serializeChunks (c :: cs) = serializeChunk c ++ serializeChunks cs := rfl


theorem serializeChunks_append (cs ds : List Chunk) :
    serializeChunks (cs ++ ds) = serializeChunks cs ++ serializeChunks ds := by
  induction cs with
  | nil => rfl
  | cons c cs ih => simp [serializeChunks_cons, ih]


theorem getD_drop (l : List Nat) (p i d : Nat) :
    (l.drop p).getD i d = l.getD (p + i) d := by
  induction p generalizing l with
  | zero => simp
  | succ p ih =>
      cases l with
      | nil => simp [List.getD]
      | cons x xs =>
          rw [List.drop_succ_cons, ih xs, show p + 1 + i = (p + i) + 1 from by omega]
          simp [List.getD_cons_succ]


theorem pixelsFrom_length (data : List Nat) (channels n pos a : Nat) :
    (pixelsFrom data channels n pos a).length = n := by
  induction n generalizing pos a with
  | zero => rfl
  | succ n ih => simp [pixelsFrom, ih]


theorem pixelsFrom_isEmpty (data : List Nat) (channels n pos a : Nat) :
    (pixelsFrom data channels n pos a).isEmpty = decide (n = 0) := by
  cases n <;> simp [pixelsFrom]


theorem readPxAt_bounded (data : List Nat) (channels pos prevA : Nat)
    (h : prevA < 256) : (readPxAt data channels pos prevA).Bounded := by
  unfold readPxAt Rgba.Bounded
  split
  · exact ⟨Nat.mod_lt _ (by omega), Nat.mod_lt _ (by omega),
      Nat.mod_lt _ (by omega), Nat.mod_lt _ (by omega)⟩
  · exact ⟨Nat.mod_lt _ (by omega), Nat.mod_lt _ (by omega),
      Nat.mod_lt _ (by omega), h⟩


theorem pixelsFrom_bounded (data : List Nat) (channels n pos a : Nat)
    (h : a < 256) : ∀ px ∈ pixelsFrom data channels n pos a, px.Bounded := by
  induction n generalizing pos a with
  | zero => simp [pixelsFrom]
  | succ n ih =>
      intro px hpx
      simp only [pixelsFrom, List.mem_cons] at hpx
      rcases hpx with h' | h'
      · exact h' ▸ readPxAt_bounded data channels pos a h
      · exact ih (pos + channels) _ (readPxAt_bounded data channels pos a h).2.2.2 px h'


/-- For `channels = 3` the alpha of every pixel the encoder reads is
the alpha carried in from the initial state. -/
theorem pixelsFrom_alpha3 (data : List Nat) (n pos a : Nat) :
    ∀ px ∈ pixelsFrom data 3 n pos a, px.a = a := by
  induction n generalizing pos with
  | zero => simp [pixelsFrom]
  | succ n ih =>
      intro px hpx
      simp only [pixelsFrom, List.mem_cons] at hpx
      have hra : (readPxAt data 3 pos a).a = a := by simp [readPxAt]
      rcases hpx with h' | h'
      · rw [h', hra]
      · exact ih (pos + 3) px (hra ▸ h')


/-- One step of the byte-level encoder is the serialisation of one step
of the chunk-level encoder. -/
theorem encByteStep_eq (px : Rgba) (isLast : Bool) (c : EncCore) (o : List Nat) :
    encByteStep px isLast ⟨c.index, c.run, c.px_prev, o⟩ =
      ⟨(encStep px isLast c).1.index, (encStep px isLast c).1.run,
        (encStep px isLast c).1.px_prev, o ++ serializeChunks (encStep px isLast c).2⟩ := by
  unfold encByteStep encStep
  dsimp only
  split_ifs <;>
    simp [serializeChunks_append, serializeChunks_cons, serializeChunks_nil, serializeChunk]


/-- The byte-level encoder loop is the chunk-level encoder over the
extracted pixel list, serialised. -/
theorem encodeLoop_eq_chunks (data : List Nat) (channels : Nat) :
    ∀ (n pos : Nat) (c : EncCore) (o : List Nat),
      encodeLoop data channels n pos ⟨c.index, c.run, c.px_prev, o⟩ =
        ⟨(encodePixelsC (pixelsFrom data channels n pos c.px_prev.a) c).1.index,
          (encodePixelsC (pixelsFrom data channels n pos c.px_prev.a) c).1.run,
          (encodePixelsC (pixelsFrom data channels n pos c.px_prev.a) c).1.px_prev,
          o ++ serializeChunks (encodePixelsC (pixelsFrom data channels n pos c.px_prev.a) c).2⟩ := by
  intro n
  induction n with
  | zero =>
      intro pos c o
      simp [encodeLoop, pixelsFrom, encodePixelsC, serializeChunks_nil]
  | succ n ih =>
      intro pos c o
      rw [encodeLoop, encByteStep_eq]
      set px := readPxAt data channels pos c.px_prev.a with hpx
      have hprev : (encStep px (decide (n = 0)) c).1.px_prev = px := by
        unfold encStep; dsimp only; split_ifs <;> rfl
      rw [ih (pos + channels) (encStep px (decide (n = 0)) c).1
            (o ++ serializeChunks (encStep px (decide (n = 0)) c).2)]
      have hunf : pixelsFrom data channels (n + 1) pos c.px_prev.a =
          px :: pixelsFrom data channels n (pos + channels) px.a := rfl
      rw [hunf]
      simp only [encodePixelsC, pixelsFrom_isEmpty, hprev]
      rw [serializeChunks_append, List.append_assoc]


/-- The positional decoder loop agrees with the consuming decoder
`decodeAux` run on the dropped stream with `budget = chunksLen - p`. -/
theorem decodeLoop_eq_aux (bytes : List Nat) (chunksLen : Nat) :
    ∀ (n : Nat) (s : DecState),
      (decodeLoop bytes chunksLen n s).1 =
        (decodeAux (bytes.drop s.p) (chunksLen - s.p) n s.run ⟨s.index, s.px⟩).1 ∧
      (decodeLoop bytes chunksLen n s).2.index =
        (decodeAux (bytes.drop s.p) (chunksLen - s.p) n s.run ⟨s.index, s.px⟩).2.2.index ∧
      (decodeLoop bytes chunksLen n s).2.px =
        (decodeAux (bytes.drop s.p) (chunksLen - s.p) n s.run ⟨s.index, s.px⟩).2.2.px ∧
      (decodeLoop bytes chunksLen n s).2.run =
        (decodeAux (bytes.drop s.p) (chunksLen - s.p) n s.run ⟨s.index, s.px⟩).2.1 := by
  intro n
  induction n with
  | zero => intro s; simp [decodeLoop, decodeAux]
  | succ n ih =>
      intro s
      simp only [decodeLoop, decodeAux, decodeStep, getD_drop, Nat.add_zero]
      by_cases hr : 0 < s.run
      · simp only [if_pos hr]
        have := ih ⟨s.index, s.px, s.run - 1, s.p⟩
        exact ⟨by rw [this.1], this.2.1, this.2.2.1, this.2.2.2⟩
      · have key : ∀ (k : Nat) (idx : Nat → Rgba) (px : Rgba) (run : Nat),
            ((decodeLoop bytes chunksLen n ⟨idx, px, run, s.p + k⟩).1 =
              (decodeAux ((bytes.drop s.p).drop k) (chunksLen - s.p - k) n run ⟨idx, px⟩).1) ∧
            ((decodeLoop bytes chunksLen n ⟨idx, px, run, s.p + k⟩).2.index =
              (decodeAux ((bytes.drop s.p).drop k) (chunksLen - s.p - k) n run ⟨idx, px⟩).2.2.index) ∧
            ((decodeLoop bytes chunksLen n ⟨idx, px, run, s.p + k⟩).2.px =
              (decodeAux ((bytes.drop s.p).drop k) (chunksLen - s.p - k) n run ⟨idx, px⟩).2.2.px) ∧
            ((decodeLoop bytes chunksLen n ⟨idx, px, run, s.p + k⟩).2.run =
              (decodeAux ((bytes.drop s.p).drop k) (chunksLen - s.p - k) n run ⟨idx, px⟩).2.1) := by
          intro k idx px run
          have hd : (bytes.drop s.p).drop k = bytes.drop (s.p + k) := by
            rw [List.drop_drop, Nat.add_comm]
          have hs : chunksLen - s.p - k = chunksLen - (s.p + k) := by omega
          rw [hd, hs]
          exact ih ⟨idx, px, run, s.p + k⟩
        simp only [getD_drop, Nat.add_zero] at key
        by_cases hp : s.p < chunksLen
        · have hb : 0 < chunksLen - s.p := by omega
          simp only [if_neg hr, if_pos hp, if_pos hb]
          by_cases h254 : bytes.getD s.p 0 % 256 = 254
          · simp only [if_pos h254]
            exact ⟨by rw [(key 4 _ _ 0).1], (key 4 _ _ 0).2.1, (key 4 _ _ 0).2.2.1,
              (key 4 _ _ 0).2.2.2⟩
          · by_cases h255 : bytes.getD s.p 0 % 256 = 255
            · simp only [if_neg h254, if_pos h255]
              exact ⟨by rw [(key 5 _ _ 0).1], (key 5 _ _ 0).2.1, (key 5 _ _ 0).2.2.1,
                (key 5 _ _ 0).2.2.2⟩
            · by_cases h0 : bytes.getD s.p 0 % 256 / 64 = 0
              · simp only [if_neg h254, if_neg h255, if_pos h0]
                exact ⟨by rw [(key 1 _ _ 0).1], (key 1 _ _ 0).2.1, (key 1 _ _ 0).2.2.1,
                  (key 1 _ _ 0).2.2.2⟩
              · by_cases h1 : bytes.getD s.p 0 % 256 / 64 = 1
                · simp only [if_neg h254, if_neg h255, if_neg h0, if_pos h1]
                  exact ⟨by rw [(key 1 _ _ 0).1], (key 1 _ _ 0).2.1, (key 1 _ _ 0).2.2.1,
                    (key 1 _ _ 0).2.2.2⟩
                · by_cases h2 : bytes.getD s.p 0 % 256 / 64 = 2
                  · simp only [if_neg h254, if_neg h255, if_neg h0, if_neg h1, if_pos h2]
                    exact ⟨by rw [(key 2 _ _ 0).1], (key 2 _ _ 0).2.1, (key 2 _ _ 0).2.2.1,
                      (key 2 _ _ 0).2.2.2⟩
                  · simp only [if_neg h254, if_neg h255, if_neg h0, if_neg h1, if_neg h2]
                    exact ⟨by rw [(key 1 _ _ (bytes.getD s.p 0 % 256 % 64)).1],
                      (key 1 _ _ (bytes.getD s.p 0 % 256 % 64)).2.1,
                      (key 1 _ _ (bytes.getD s.p 0 % 256 % 64)).2.2.1,
                      (key 1 _ _ (bytes.getD s.p 0 % 256 % 64)).2.2.2⟩
        · have hb : ¬ 0 < chunksLen - s.p := by omega
          simp only [if_neg hr, if_neg hp, if_neg hb]
          have := ih s
          exact ⟨by rw [this.1], this.2.1, this.2.2.1, this.2.2.2⟩


/-! ## Decoding of single chunks -/

/-- A pending run of `k` emits `k` copies of the current pixel without
reading any bytes. -/
theorem decodeAux_count (k : Nat) :
    ∀ (n : Nat) (S : List Nat) (b : Nat) (c : DCore),
      decodeAux S b (k + n) k c =
        (List.replicate k c.px ++ (decodeAux S b n 0 c).1, (decodeAux S b n 0 c).2) := by
  induction k with
  | zero => intro n S b c; simp
  | succ k ih =>
      intro n S b c
      rw [show k + 1 + n = (k + n) + 1 from by omega]
      simp only [decodeAux, if_pos (Nat.succ_pos k), Nat.add_sub_cancel]
      rw [ih n S b c]
      simp [List.replicate_succ]


/-- Decoding a `QOI_OP_RUN` chunk with low-6 value `k ≤ 61` produces
`k + 1` copies of the current pixel and, thanks to index coherence,
leaves the core state unchanged. -/
theorem dec_run (k : Nat) (hk : k ≤ 61) (c : DCore)
    (hcoh : c.index (qoiHash c.px) = c.px) (S : List Nat) (b n : Nat) :
    decodeAux ((192 + k) :: S) (1 + b) (k + 1 + n) 0 c =
      (List.replicate (k + 1) c.px ++ (decodeAux S b n 0 c).1,
        (decodeAux S b n 0 c).2) := by
  rw [show k + 1 + n = (k + n) + 1 from by omega]
  have hb1 : ((192 + k) :: S).getD 0 0 % 256 = 192 + k := by
    simp [List.getD_cons_zero, Nat.mod_eq_of_lt (by omega : 192 + k < 256)]
  simp only [decodeAux, if_neg (lt_irrefl 0), if_pos (by omega : 0 < 1 + b), hb1]
  rw [if_neg (by omega : ¬ 192 + k = 254), if_neg (by omega : ¬ 192 + k = 255),
    if_neg (by omega : ¬ (192 + k) / 64 = 0), if_neg (by omega : ¬ (192 + k) / 64 = 1),
    if_neg (by omega : ¬ (192 + k) / 64 = 2)]
  rw [updIdx_eq_of_hit _ _ _ hcoh]
  have hrk : (192 + k) % 64 = k := by omega
  have hdrop : ((192 + k) :: S).drop 1 = S := rfl
  rw [hrk, hdrop, show 1 + b - 1 = b from by omega]
  have : (⟨c.index, c.px⟩ : DCore) = c := rfl
  rw [this, decodeAux_count k n S b c]
  simp [List.replicate_succ]


/-- Decoding a `QOI_OP_INDEX` chunk that the encoder emitted on an
index hit yields the hit pixel and does not change the index array. -/
theorem dec_index (q : Rgba) (idx : Nat → Rgba) (hhit : idx (qoiHash q) = q)
    (S : List Nat) (b n : Nat) (pv : Rgba) :
    decodeAux (qoiHash q :: S) (1 + b) (1 + n) 0 ⟨idx, pv⟩ =
      (q :: (decodeAux S b n 0 ⟨idx, q⟩).1, (decodeAux S b n 0 ⟨idx, q⟩).2) := by
  have h64 := qoiHash_lt q
  rw [show 1 + n = n + 1 from by omega]
  have hb1 : (qoiHash q :: S).getD 0 0 % 256 = qoiHash q := by
    simp [List.getD_cons_zero, Nat.mod_eq_of_lt (by omega : qoiHash q < 256)]
  simp only [decodeAux, if_neg (lt_irrefl 0), if_pos (by omega : 0 < 1 + b), hb1]
  rw [if_neg (by omega : ¬ qoiHash q = 254), if_neg (by omega : ¬ qoiHash q = 255),
    if_pos (by omega : qoiHash q / 64 = 0)]
  rw [hhit, updIdx_eq_of_hit _ _ _ hhit]
  have hdrop : (qoiHash q :: S).drop 1 = S := rfl
  rw [hdrop, show 1 + b - 1 = b from by omega]


/-- Decoding a `QOI_OP_RGB` chunk. -/
theorem dec_rgb (q pv : Rgba) (idx : Nat → Rgba) (hq : q.Bounded) (ha : q.a = pv.a)
    (S : List Nat) (b n : Nat) :
    decodeAux (254 :: q.r :: q.g :: q.b :: S) (4 + b) (1 + n) 0 ⟨idx, pv⟩ =
      (q :: (decodeAux S b n 0 ⟨updIdx idx (qoiHash q) q, q⟩).1,
        (decodeAux S b n 0 ⟨updIdx idx (qoiHash q) q, q⟩).2) := by
  obtain ⟨h1, h2, h3, h4⟩ := hq
  rw [show 1 + n = n + 1 from by omega]
  simp only [decodeAux, if_neg (lt_irrefl 0), if_pos (by omega : 0 < 4 + b)]
  have hb1 : (254 :: q.r :: q.g :: q.b :: S).getD 0 0 % 256 = 254 := by simp
  rw [hb1, if_pos rfl]
  have hr : (254 :: q.r :: q.g :: q.b :: S).getD 1 0 % 256 = q.r := by
    simp [Nat.mod_eq_of_lt h1]
  have hg : (254 :: q.r :: q.g :: q.b :: S).getD 2 0 % 256 = q.g := by
    simp [Nat.mod_eq_of_lt h2]
  have hbb : (254 :: q.r :: q.g :: q.b :: S).getD 3 0 % 256 = q.b := by
    simp [Nat.mod_eq_of_lt h3]
  rw [hr, hg, hbb, ha.symm]
  have hpx : (⟨q.r, q.g, q.b, q.a⟩ : Rgba) = q := rfl
  rw [hpx]
  have hdrop : (254 :: q.r :: q.g :: q.b :: S).drop 4 = S := rfl
  rw [hdrop, show 4 + b - 4 = b from by omega]


/-- Decoding a `QOI_OP_RGBA` chunk. -/
theorem dec_rgba (q : Rgba) (pv : Rgba) (idx : Nat → Rgba) (hq : q.Bounded)
    (S : List Nat) (b n : Nat) :
    decodeAux (255 :: q.r :: q.g :: q.b :: q.a :: S) (5 + b) (1 + n) 0 ⟨idx, pv⟩ =
      (q :: (decodeAux S b n 0 ⟨updIdx idx (qoiHash q) q, q⟩).1,
        (decodeAux S b n 0 ⟨updIdx idx (qoiHash q) q, q⟩).2) := by
  obtain ⟨h1, h2, h3, h4⟩ := hq
  rw [show 1 + n = n + 1 from by omega]
  simp only [decodeAux, if_neg (lt_irrefl 0), if_pos (by omega : 0 < 5 + b)]
  have hb1 : (255 :: q.r :: q.g :: q.b :: q.a :: S).getD 0 0 % 256 = 255 := by simp
  rw [hb1, if_neg (by omega : ¬ (255 : Nat) = 254), if_pos rfl]
  have hr : (255 :: q.r :: q.g :: q.b :: q.a :: S).getD 1 0 % 256 = q.r := by
    simp [Nat.mod_eq_of_lt h1]
  have hg : (255 :: q.r :: q.g :: q.b :: q.a :: S).getD 2 0 % 256 = q.g := by
    simp [Nat.mod_eq_of_lt h2]
  have hbb : (255 :: q.r :: q.g :: q.b :: q.a :: S).getD 3 0 % 256 = q.b := by
    simp [Nat.mod_eq_of_lt h3]
  have ha : (255 :: q.r :: q.g :: q.b :: q.a :: S).getD 4 0 % 256 = q.a := by
    simp [Nat.mod_eq_of_lt h4]
  rw [hr, hg, hbb, ha]
  have hpx : (⟨q.r, q.g, q.b, q.a⟩ : Rgba) = q := rfl
  rw [hpx]
  have hdrop : (255 :: q.r :: q.g :: q.b :: q.a :: S).drop 5 = S := rfl
  rw [hdrop, show 5 + b - 5 = b from by omega]


/-- Decoding a `QOI_OP_DIFF` chunk with biased fields `dr dg db < 4`
that satisfy the wrap-around reconstruction equations. -/
theorem dec_diff (q pv : Rgba) (idx : Nat → Rgba) (dr dg db : Nat)
    (hdr : dr < 4) (hdg : dg < 4) (hdb : db < 4)
    (er : (pv.r + dr + 254) % 256 = q.r) (eg : (pv.g + dg + 254) % 256 = q.g)
    (eb : (pv.b + db + 254) % 256 = q.b) (ha : q.a = pv.a)
    (S : List Nat) (b n : Nat) :
    decodeAux ((64 + dr * 16 + dg * 4 + db) :: S) (1 + b) (1 + n) 0 ⟨idx, pv⟩ =
      (q :: (decodeAux S b n 0 ⟨updIdx idx (qoiHash q) q, q⟩).1,
        (decodeAux S b n 0 ⟨updIdx idx (qoiHash q) q, q⟩).2) := by
  rw [show 1 + n = n + 1 from by omega]
  simp only [decodeAux, if_neg (lt_irrefl 0), if_pos (by omega : 0 < 1 + b)]
  have hb1 : ((64 + dr * 16 + dg * 4 + db) :: S).getD 0 0 % 256 = 64 + dr * 16 + dg * 4 + db := by
    simp [List.getD_cons_zero, Nat.mod_eq_of_lt (by omega : 64 + dr * 16 + dg * 4 + db < 256)]
  rw [hb1, if_neg (by omega : ¬ 64 + dr * 16 + dg * 4 + db = 254),
    if_neg (by omega : ¬ 64 + dr * 16 + dg * 4 + db = 255),
    if_neg (by omega : ¬ (64 + dr * 16 + dg * 4 + db) / 64 = 0),
    if_pos (by omega : (64 + dr * 16 + dg * 4 + db) / 64 = 1)]
  have e1 : (64 + dr * 16 + dg * 4 + db) / 16 % 4 = dr := by omega
  have e2 : (64 + dr * 16 + dg * 4 + db) / 4 % 4 = dg := by omega
  have e3 : (64 + dr * 16 + dg * 4 + db) % 4 = db := by omega
  rw [e1, e2, e3, er, eg, eb, ← ha]
  have hpx : (⟨q.r, q.g, q.b, q.a⟩ : Rgba) = q := rfl
  rw [hpx]
  have hdrop : ((64 + dr * 16 + dg * 4 + db) :: S).drop 1 = S := rfl
  rw [hdrop, show 1 + b - 1 = b from by omega]


/-- Decoding a `QOI_OP_LUMA` chunk with biased fields `dg < 64`,
`drdg dbdg < 16` that satisfy the wrap-around reconstruction
equations. -/
theorem dec_luma (q pv : Rgba) (idx : Nat → Rgba) (dg drdg dbdg : Nat)
    (hdg : dg < 64) (hdr : drdg < 16) (hdb : dbdg < 16)
    (er : (pv.r + dg + drdg + 216) % 256 = q.r)
    (eg : (pv.g + dg + 224) % 256 = q.g)
    (eb : (pv.b + dg + dbdg + 216) % 256 = q.b) (ha : q.a = pv.a)
    (S : List Nat) (b n : Nat) :
    decodeAux ((128 + dg) :: (drdg * 16 + dbdg) :: S) (2 + b) (1 + n) 0 ⟨idx, pv⟩ =
      (q :: (decodeAux S b n 0 ⟨updIdx idx (qoiHash q) q, q⟩).1,
        (decodeAux S b n 0 ⟨updIdx idx (qoiHash q) q, q⟩).2) := by
  rw [show 1 + n = n + 1 from by omega]
  simp only [decodeAux, if_neg (lt_irrefl 0), if_pos (by omega : 0 < 2 + b)]
  have hb1 : ((128 + dg) :: (drdg * 16 + dbdg) :: S).getD 0 0 % 256 = 128 + dg := by
    simp [List.getD_cons_zero, Nat.mod_eq_of_lt (by omega : 128 + dg < 256)]
  rw [hb1, if_neg (by omega : ¬ 128 + dg = 254), if_neg (by omega : ¬ 128 + dg = 255),
    if_neg (by omega : ¬ (128 + dg) / 64 = 0), if_neg (by omega : ¬ (128 + dg) / 64 = 1),
    if_pos (by omega : (128 + dg) / 64 = 2)]
  have hb2 : ((128 + dg) :: (drdg * 16 + dbdg) :: S).getD 1 0 % 256 = drdg * 16 + dbdg := by
    simp [Nat.mod_eq_of_lt (by omega : drdg * 16 + dbdg < 256)]
  rw [hb2]
  have e0 : (128 + dg) % 64 = dg := by omega
  have e1 : (drdg * 16 + dbdg) / 16 % 16 = drdg := by omega
  have e2 : (drdg * 16 + dbdg) % 16 = dbdg := by omega
  rw [e0, e1, e2, er, eg, eb, ← ha]
  have hpx : (⟨q.r, q.g, q.b, q.a⟩ : Rgba) = q := rfl
  rw [hpx]
  have hdrop : ((128 + dg) :: (drdg * 16 + dbdg) :: S).drop 2 = S := rfl
  rw [hdrop, show 2 + b - 2 = b from by omega]


/-- When the byte budget is exhausted (cursor at or past `chunks_len`),
every remaining output pixel is a copy of the current pixel. -/
theorem decodeAux_exhausted (n : Nat) :
    ∀ (S : List Nat) (c : DCore),
      decodeAux S 0 n 0 c = (List.replicate n c.px, 0, c) := by
  induction n with
  | zero => intro S c; simp [decodeAux]
  | succ n ih => intro S c; simp [decodeAux, ih, List.replicate_succ]


/-! ## Wrap-around arithmetic: the decoder inverts the encoder fields -/

theorem diff_field_lt (x y : Nat) (h1 : -3 < toSigned (sub8 x y))
    (h2 : toSigned (sub8 x y) < 2) : (toSigned (sub8 x y) + 2).toNat < 4 := by
  unfold toSigned sub8 at *
  split_ifs at * <;> omega


theorem diff_recon (x y : Nat) (hx : x < 256) (hy : y < 256)
    (h1 : -3 < toSigned (sub8 x y)) (h2 : toSigned (sub8 x y) < 2) :
    (y + (toSigned (sub8 x y) + 2).toNat + 254) % 256 = x := by
  unfold toSigned sub8 at *
  split_ifs at * <;> omega


theorem luma_g_lt (gx gy : Nat) (h1 : -33 < toSigned (sub8 gx gy))
    (h2 : toSigned (sub8 gx gy) < 32) : (toSigned (sub8 gx gy) + 32).toNat < 64 := by
  unfold toSigned sub8 at *
  split_ifs at * <;> omega


theorem luma_g_recon (gx gy : Nat) (hx : gx < 256) (hy : gy < 256)
    (h1 : -33 < toSigned (sub8 gx gy)) (h2 : toSigned (sub8 gx gy) < 32) :
    (gy + (toSigned (sub8 gx gy) + 32).toNat + 224) % 256 = gx := by
  unfold toSigned sub8 at *
  split_ifs at * <;> omega


theorem luma_rb_lt (x y gx gy : Nat)
    (h1 : -9 < toSigned (sub8 (sub8 x y) (sub8 gx gy)))
    (h2 : toSigned (sub8 (sub8 x y) (sub8 gx gy)) < 8) :
    (toSigned (sub8 (sub8 x y) (sub8 gx gy)) + 8).toNat < 16 := by
  unfold toSigned sub8 at *
  split_ifs at * <;> omega


theorem luma_rb_recon (x y gx gy : Nat) (hx : x < 256) (hy : y < 256)
    (hg1 : -33 < toSigned (sub8 gx gy)) (hg2 : toSigned (sub8 gx gy) < 32)
    (hr1 : -9 < toSigned (sub8 (sub8 x y) (sub8 gx gy)))
    (hr2 : toSigned (sub8 (sub8 x y) (sub8 gx gy)) < 8) :
    (y + (toSigned (sub8 gx gy) + 32).toNat +
      (toSigned (sub8 (sub8 x y) (sub8 gx gy)) + 8).toNat + 216) % 256 = x := by
  unfold toSigned sub8 at *
  split_ifs at * <;> omega


theorem leadCount_le (c : Rgba) (l : List Rgba) : leadCount c l ≤ l.length := by
  induction l with
  | nil => simp [leadCount]
  | cons x xs ih =>
      unfold leadCount
      split <;> simp <;> omega


theorem take_leadCount (c : Rgba) (l : List Rgba) :
    ∀ j ≤ leadCount c l, l.take j = List.replicate j c := by
  induction l with
  | nil =>
      intro j hj
      simp [leadCount] at hj
      simp [hj]
  | cons x xs ih =>
      intro j hj
      unfold leadCount at hj
      by_cases hx : x = c
      · rw [if_pos hx] at hj
        cases j with
        | zero => simp
        | succ j =>
            rw [List.take_succ_cons, List.replicate_succ, hx, ih j (by omega)]
      · rw [if_neg hx] at hj
        have : j = 0 := by omega
        simp [this]


theorem drop_leadCount (c : Rgba) (l : List Rgba)
    (h : leadCount c l < l.length) :
    ∃ q M, l.drop (leadCount c l) = q :: M ∧ q ≠ c := by
  induction l with
  | nil => simp at h
  | cons x xs ih =>
      unfold leadCount at h ⊢
      by_cases hx : x = c
      · rw [if_pos hx] at h ⊢
        simp only [List.length_cons] at h
        obtain ⟨q, M, hqm, hq⟩ := ih (by omega)
        exact ⟨q, M, by simpa using hqm, hq⟩
      · rw [if_neg hx]
        exact ⟨x, xs, rfl, hx⟩


/-- Encoding `j` more copies of `px_prev` with `run + j` still below the
flush threshold and more pixels following: the run counter accumulates
and nothing is emitted. -/
theorem enc_replicate_mid (c : Rgba) :
    ∀ (j r : Nat) (co : EncCore) (M : List Rgba),
      co.px_prev = c → co.run = r → r + j ≤ 61 → M ≠ [] →
      encodePixelsC (List.replicate j c ++ M) co = encodePixelsC M ⟨co.index, r + j, c⟩ := by
  intro j
  induction j with
  | zero =>
      intro r co M hp hr _ _
      have h2 : (⟨co.index, r + 0, c⟩ : EncCore) = co := by
        have hr0 : r + 0 = co.run := by omega
        rw [hr0, ← hp]
      rw [h2]
      rfl
  | succ j ih =>
      intro r co M hp hr hle hM
      rw [List.replicate_succ, List.cons_append]
      have hne : (List.replicate j c ++ M).isEmpty = false := by
        cases M with
        | nil => exact absurd rfl hM
        | cons y ys => simp
      show (let r1 := encStep c (List.replicate j c ++ M).isEmpty co
            let r2 := encodePixelsC (List.replicate j c ++ M) r1.1
            (r2.1, r1.2 ++ r2.2)) = _
      rw [hne]
      have hstep : encStep c false co = (⟨co.index, r + 1, c⟩, []) := by
        unfold encStep
        rw [if_pos hp.symm, if_neg (by simp; omega)]
        rw [hr]
      rw [hstep]
      simp only []
      rw [ih (r + 1) ⟨co.index, r + 1, c⟩ M rfl rfl (by omega) hM]
      rw [show r + 1 + j = r + (j + 1) from by omega]
      simp


/-- Encoding a whole image tail of `j` copies of `px_prev`
(`1 ≤ run + j ≤ 62`): a single RUN chunk with value `run + j - 1`. -/
theorem enc_replicate_all (c : Rgba) :
    ∀ (j r : Nat) (co : EncCore),
      co.px_prev = c → co.run = r → 1 ≤ j → r + j ≤ 62 →
      encodePixelsC (List.replicate j c) co = (⟨co.index, 0, c⟩, [Chunk.run (r + j - 1)]) := by
  intro j
  induction j with
  | zero => intro r co _ _ h1 _; omega
  | succ j ih =>
      intro r co hp hr h1 hle
      rw [List.replicate_succ]
      cases j with
      | zero =>
          show (let r1 := encStep c (List.replicate 0 c).isEmpty co
                let r2 := encodePixelsC (List.replicate 0 c) r1.1
                (r2.1, r1.2 ++ r2.2)) = _
          have hstep : encStep c true co = (⟨co.index, 0, c⟩, [Chunk.run (r + 1 - 1)]) := by
            unfold encStep
            rw [if_pos hp.symm, if_pos (Or.inr rfl), hr]
          simp only [List.replicate, List.isEmpty_nil, hstep]
          simp [encodePixelsC]
      | succ j =>
          show (let r1 := encStep c (List.replicate (j + 1) c).isEmpty co
                let r2 := encodePixelsC (List.replicate (j + 1) c) r1.1
                (r2.1, r1.2 ++ r2.2)) = _
          have hne : (List.replicate (j + 1) c).isEmpty = false := by simp
          rw [hne]
          have hstep : encStep c false co = (⟨co.index, r + 1, c⟩, []) := by
            unfold encStep
            rw [if_pos hp.symm, if_neg (by simp; omega), hr]
          rw [hstep]
          simp only []
          rw [ih (r + 1) ⟨co.index, r + 1, c⟩ rfl rfl (by omega) (by omega)]
          rw [show r + 1 + (j + 1) - 1 = r + (j + 1 + 1) - 1 from by omega]
          simp


/-- Encoding 62 copies of `px_prev` from `run = 0`: the run counter
hits 62 and a RUN chunk with value 61 is emitted, whether or not more
pixels follow. -/
theorem enc_replicate_62 (c : Rgba) (co : EncCore) (M : List Rgba)
    (hp : co.px_prev = c) (hr : co.run = 0) :
    encodePixelsC (List.replicate 62 c ++ M) co =
      ((encodePixelsC M ⟨co.index, 0, c⟩).1,
        Chunk.run 61 :: (encodePixelsC M ⟨co.index, 0, c⟩).2) := by
  have h62 : List.replicate 62 c ++ M = List.replicate 61 c ++ (c :: M) := by
    rw [show (62 : Nat) = 61 + 1 from rfl, List.replicate_succ', List.append_assoc]
    rfl
  rw [h62, enc_replicate_mid c 61 0 co (c :: M) hp hr (by omega) (by simp)]
  show (let r1 := encStep c M.isEmpty ⟨co.index, 0 + 61, c⟩
        let r2 := encodePixelsC M r1.1
        (r2.1, r1.2 ++ r2.2)) = _
  have hstep : encStep c M.isEmpty ⟨co.index, 0 + 61, c⟩ = (⟨co.index, 0, c⟩, [Chunk.run 61]) := by
    unfold encStep
    rw [if_pos rfl, if_pos (Or.inl (by simp))]
    simp
  rw [hstep]
  simp


theorem updIdx_bounded (idx : Nat → Rgba) (h : Nat) (q : Rgba)
    (hbidx : ∀ i, (idx i).Bounded) (hbq : q.Bounded) :
    ∀ i, ((updIdx idx h q) i).Bounded := by
  intro i
  unfold updIdx
  split
  · exact hbq
  · exact hbidx i


/-- Simulation for a single pixel that differs from `px_prev`, starting
with no pending run: whichever chunk the encoder chooses, the decoder
reconstructs exactly that pixel and ends in the matching state. -/
theorem enc_dec_single (q pv : Rgba) (idx : Nat → Rgba) (last : Bool)
    (hq : q ≠ pv) (hbq : q.Bounded) (hbpv : pv.Bounded) (hbidx : ∀ i, (idx i).Bounded) :
    (encStep q last ⟨idx, 0, pv⟩).1.run = 0 ∧
    (encStep q last ⟨idx, 0, pv⟩).1.px_prev = q ∧
    (∀ i, ((encStep q last ⟨idx, 0, pv⟩).1.index i).Bounded) ∧
    (encStep q last ⟨idx, 0, pv⟩).1.index (qoiHash q) = q ∧
    ∀ (S : List Nat) (b n : Nat),
      decodeAux (serializeChunks (encStep q last ⟨idx, 0, pv⟩).2 ++ S)
          ((serializeChunks (encStep q last ⟨idx, 0, pv⟩).2).length + b) (1 + n) 0 ⟨idx, pv⟩ =
        (q :: (decodeAux S b n 0 ⟨(encStep q last ⟨idx, 0, pv⟩).1.index, q⟩).1,
          (decodeAux S b n 0 ⟨(encStep q last ⟨idx, 0, pv⟩).1.index, q⟩).2) := by
  by_cases hhit : idx (qoiHash q) = q
  · have hstep : encStep q last ⟨idx, 0, pv⟩ = (⟨idx, 0, q⟩, [Chunk.index (qoiHash q)]) := by
      unfold encStep
      dsimp only
      rw [if_neg hq, if_neg (lt_irrefl 0), if_pos hhit]
      rfl
    rw [hstep]
    refine ⟨rfl, rfl, hbidx, hhit, ?_⟩
    intro S b n
    exact dec_index q idx hhit S b n pv
  · by_cases ha : q.a = pv.a
    · by_cases hd : -3 < toSigned (sub8 q.r pv.r) ∧ toSigned (sub8 q.r pv.r) < 2 ∧
          -3 < toSigned (sub8 q.g pv.g) ∧ toSigned (sub8 q.g pv.g) < 2 ∧
          -3 < toSigned (sub8 q.b pv.b) ∧ toSigned (sub8 q.b pv.b) < 2
      · have hstep : encStep q last ⟨idx, 0, pv⟩ = (⟨updIdx idx (qoiHash q) q, 0, q⟩,
            [Chunk.diff (toSigned (sub8 q.r pv.r) + 2).toNat
              (toSigned (sub8 q.g pv.g) + 2).toNat (toSigned (sub8 q.b pv.b) + 2).toNat]) := by
          unfold encStep
          dsimp only
          rw [if_neg hq, if_neg (lt_irrefl 0), if_neg hhit, if_pos ha, if_pos hd]
          rfl
        rw [hstep]
        refine ⟨rfl, rfl, updIdx_bounded idx _ q hbidx hbq, updIdx_self .., ?_⟩
        intro S b n
        obtain ⟨h1, h2, h3, h4, h5, h6⟩ := hd
        exact dec_diff q pv idx _ _ _
          (diff_field_lt q.r pv.r h1 h2) (diff_field_lt q.g pv.g h3 h4)
          (diff_field_lt q.b pv.b h5 h6)
          (diff_recon q.r pv.r hbq.1 hbpv.1 h1 h2)
          (diff_recon q.g pv.g hbq.2.1 hbpv.2.1 h3 h4)
          (diff_recon q.b pv.b hbq.2.2.1 hbpv.2.2.1 h5 h6) ha S b n
      · by_cases hl : -9 < toSigned (sub8 (sub8 q.r pv.r) (sub8 q.g pv.g)) ∧
            toSigned (sub8 (sub8 q.r pv.r) (sub8 q.g pv.g)) < 8 ∧
            -33 < toSigned (sub8 q.g pv.g) ∧ toSigned (sub8 q.g pv.g) < 32 ∧
            -9 < toSigned (sub8 (sub8 q.b pv.b) (sub8 q.g pv.g)) ∧
            toSigned (sub8 (sub8 q.b pv.b) (sub8 q.g pv.g)) < 8
        · have hstep : encStep q last ⟨idx, 0, pv⟩ = (⟨updIdx idx (qoiHash q) q, 0, q⟩,
              [Chunk.luma (toSigned (sub8 q.g pv.g) + 32).toNat
                (toSigned (sub8 (sub8 q.r pv.r) (sub8 q.g pv.g)) + 8).toNat
                (toSigned (sub8 (sub8 q.b pv.b) (sub8 q.g pv.g)) + 8).toNat]) := by
            unfold encStep
            dsimp only
            rw [if_neg hq, if_neg (lt_irrefl 0), if_neg hhit, if_pos ha, if_neg hd, if_pos hl]
            rfl
          rw [hstep]
          refine ⟨rfl, rfl, updIdx_bounded idx _ q hbidx hbq, updIdx_self .., ?_⟩
          intro S b n
          obtain ⟨h1, h2, h3, h4, h5, h6⟩ := hl
          exact dec_luma q pv idx _ _ _
            (luma_g_lt q.g pv.g h3 h4)
            (luma_rb_lt q.r pv.r q.g pv.g h1 h2)
            (luma_rb_lt q.b pv.b q.g pv.g h5 h6)
            (luma_rb_recon q.r pv.r q.g pv.g hbq.1 hbpv.1 h3 h4 h1 h2)
            (luma_g_recon q.g pv.g hbq.2.1 hbpv.2.1 h3 h4)
            (luma_rb_recon q.b pv.b q.g pv.g hbq.2.2.1 hbpv.2.2.1 h3 h4 h5 h6) ha S b n
        · have hstep : encStep q last ⟨idx, 0, pv⟩ = (⟨updIdx idx (qoiHash q) q, 0, q⟩,
              [Chunk.rgb q.r q.g q.b]) := by
            unfold encStep
            dsimp only
            rw [if_neg hq, if_neg (lt_irrefl 0), if_neg hhit, if_pos ha, if_neg hd, if_neg hl]
            rfl
          rw [hstep]
          refine ⟨rfl, rfl, updIdx_bounded idx _ q hbidx hbq, updIdx_self .., ?_⟩
          intro S b n
          exact dec_rgb q pv idx hbq ha S b n
    · have hstep : encStep q last ⟨idx, 0, pv⟩ = (⟨updIdx idx (qoiHash q) q, 0, q⟩,
          [Chunk.rgba q.r q.g q.b q.a]) := by
        unfold encStep
        dsimp only
        rw [if_neg hq, if_neg (lt_irrefl 0), if_neg hhit, if_neg ha]
        rfl
      rw [hstep]
      refine ⟨rfl, rfl, updIdx_bounded idx _ q hbidx hbq, updIdx_self .., ?_⟩
      intro S b n
      exact dec_rgba q pv idx hbq S b n


theorem encCore_eta (co : EncCore) (r : Nat) (px : Rgba)
    (h1 : co.run = r) (h2 : co.px_prev = px) : co = ⟨co.index, r, px⟩ := by
  cases co
  cases h1
  cases h2
  rfl


/-- With a pending run, the encoder step for a differing pixel first
flushes the run chunk and then proceeds exactly as from `run = 0`. -/
theorem encStep_flush (q pv : Rgba) (idx : Nat → Rgba) (last : Bool) (r : Nat)
    (hq : ¬ q = pv) (hr : 0 < r) :
    encStep q last ⟨idx, r, pv⟩ =
      ((encStep q last ⟨idx, 0, pv⟩).1,
        Chunk.run (r - 1) :: (encStep q last ⟨idx, 0, pv⟩).2) := by
  unfold encStep
  dsimp only
  simp only [if_neg hq, if_pos hr, if_neg (lt_irrefl 0)]
  split_ifs <;> rfl


theorem sim_nil (idx : Nat → Rgba) (pv : Rgba)
    (hbidx : ∀ i, (idx i).Bounded) (hbpv : pv.Bounded)
    (hcoh : idx (qoiHash pv) = pv) :
    SimOk [] idx pv ⟨idx, 0, pv⟩ [] := by
  refine ⟨rfl, hbidx, hbpv, hcoh, ?_⟩
  intro S b n
  simp only [serializeChunks_nil, List.nil_append, List.length_nil, Nat.zero_add]


/-- Main simulation: encoding then decoding any pixel list round-trips,
for any coherent bounded starting predictor state. -/
theorem enc_dec_sim : ∀ (N : Nat) (L : List Rgba) (idx : Nat → Rgba) (pv : Rgba),
    L.length ≤ N → (∀ px ∈ L, px.Bounded) → (∀ i, (idx i).Bounded) → pv.Bounded →
    idx (qoiHash pv) = pv →
    SimOk L idx pv (encodePixelsC L ⟨idx, 0, pv⟩).1 (encodePixelsC L ⟨idx, 0, pv⟩).2 := by
  intro N
  induction N with
  | zero =>
      intro L idx pv hlen hb hbidx hbpv hcoh
      have : L = [] := List.length_eq_zero.mp (by omega)
      subst this
      exact sim_nil idx pv hbidx hbpv hcoh
  | succ N ih =>
      intro L idx pv hlen hb hbidx hbpv hcoh
      by_cases hL : L = []
      · subst hL
        exact sim_nil idx pv hbidx hbpv hcoh
      · have hLpos : 0 < L.length := List.length_pos.mpr hL
        by_cases hj0 : leadCount pv L = 0
        · -- leading pixel differs from px_prev
          obtain ⟨q, M, hqm, hq⟩ := drop_leadCount pv L (by omega)
          rw [hj0, List.drop_zero] at hqm
          subst hqm
          have hbq : q.Bounded := hb q (by simp)
          have hbM : ∀ px ∈ M, px.Bounded := fun px hpx => hb px (by simp [hpx])
          have single := enc_dec_single q pv idx M.isEmpty hq hbq hbpv hbidx
          have hco : (encStep q M.isEmpty ⟨idx, 0, pv⟩).1 =
              ⟨(encStep q M.isEmpty ⟨idx, 0, pv⟩).1.index, 0, q⟩ :=
            encCore_eta _ _ _ single.1 single.2.1
          have ihM := ih M (encStep q M.isEmpty ⟨idx, 0, pv⟩).1.index q
            (by simp at hlen; omega) hbM single.2.2.1 hbq single.2.2.2.1
          show SimOk (q :: M) idx pv
            (encodePixelsC M (encStep q M.isEmpty ⟨idx, 0, pv⟩).1).1
            ((encStep q M.isEmpty ⟨idx, 0, pv⟩).2 ++
              (encodePixelsC M (encStep q M.isEmpty ⟨idx, 0, pv⟩).1).2)
          rw [hco]
          refine ⟨ihM.1, ihM.2.1, ihM.2.2.1, ihM.2.2.2.1, ?_⟩
          intro S b n
          rw [serializeChunks_append, List.append_assoc]
          rw [show (serializeChunks (encStep q M.isEmpty ⟨idx, 0, pv⟩).2 ++
                serializeChunks (encodePixelsC M ⟨(encStep q M.isEmpty ⟨idx, 0, pv⟩).1.index, 0, q⟩).2).length + b =
              (serializeChunks (encStep q M.isEmpty ⟨idx, 0, pv⟩).2).length +
                ((serializeChunks (encodePixelsC M ⟨(encStep q M.isEmpty ⟨idx, 0, pv⟩).1.index, 0, q⟩).2).length + b)
            from by simp only [List.length_append]; omega]
          rw [show (q :: M).length + n = 1 + (M.length + n) from by
            simp only [List.length_cons]; omega]
          rw [single.2.2.2.2]
          rw [ihM.2.2.2.2]
          simp [List.cons_append]
        · -- a leading run of px_prev
          have hj1 : 1 ≤ leadCount pv L := by omega
          by_cases h62 : 62 ≤ leadCount pv L
          · -- run counter reaches 62 and is flushed
            have h62len : 62 ≤ L.length := le_trans h62 (leadCount_le pv L)
            have htake : L.take 62 = List.replicate 62 pv := take_leadCount pv L 62 h62
            have hsplit : L = List.replicate 62 pv ++ L.drop 62 := by
              conv_lhs => rw [← List.take_append_drop 62 L]
              rw [htake]
            have hbM : ∀ px ∈ L.drop 62, px.Bounded :=
              fun px hpx => hb px (List.mem_of_mem_drop hpx)
            have ihM := ih (L.drop 62) idx pv
              (by simp only [List.length_drop]; omega) hbM hbidx hbpv hcoh
            rw [hsplit, enc_replicate_62 pv ⟨idx, 0, pv⟩ (L.drop 62) rfl rfl]
            refine ⟨ihM.1, ihM.2.1, ihM.2.2.1, ihM.2.2.2.1, ?_⟩
            intro S b n
            rw [serializeChunks_cons]
            rw [show serializeChunk (Chunk.run 61) = [192 + 61] from rfl]
            rw [show ([192 + 61] ++ serializeChunks (encodePixelsC (L.drop 62) ⟨idx, 0, pv⟩).2) ++ S =
                (192 + 61) :: (serializeChunks (encodePixelsC (L.drop 62) ⟨idx, 0, pv⟩).2 ++ S)
              from by simp]
            rw [show (([192 + 61] : List Nat) ++
                  serializeChunks (encodePixelsC (L.drop 62) ⟨idx, 0, pv⟩).2).length + b =
                1 + ((serializeChunks (encodePixelsC (L.drop 62) ⟨idx, 0, pv⟩).2).length + b)
              from by simp only [List.length_append, List.length_cons, List.length_nil]; omega]
            rw [show (List.replicate 62 pv ++ L.drop 62).length + n =
                61 + 1 + ((L.drop 62).length + n) from by
              simp only [List.length_append, List.length_replicate]; omega]
            rw [dec_run 61 (by omega) ⟨idx, pv⟩ hcoh _ _ _]
            rw [ihM.2.2.2.2]
            simp [List.append_assoc]
          · by_cases hall : leadCount pv L = L.length
            · -- the rest of the image is one run, flushed at the last pixel
              have htake : L.take (leadCount pv L) = List.replicate (leadCount pv L) pv :=
                take_leadCount pv L _ le_rfl
              have hrepl : L = List.replicate L.length pv := by
                conv_lhs => rw [← List.take_length L, ← hall, htake, hall]
              rw [hrepl, enc_replicate_all pv L.length 0 ⟨idx, 0, pv⟩ rfl rfl (by omega) (by omega)]
              refine ⟨rfl, hbidx, hbpv, hcoh, ?_⟩
              intro S b n
              rw [show serializeChunks [Chunk.run (0 + L.length - 1)] =
                  [192 + (L.length - 1)] from by
                simp only [serializeChunks_cons, serializeChunks_nil, serializeChunk]
                simp only [List.append_nil, List.cons.injEq, and_true]
                omega]
              rw [show ([192 + (L.length - 1)] : List Nat) ++ S = (192 + (L.length - 1)) :: S
                from rfl]
              rw [show (([192 + (L.length - 1)] : List Nat)).length + b = 1 + b from by simp]
              rw [show (List.replicate L.length pv).length + n =
                  (L.length - 1) + 1 + n from by simp only [List.length_replicate]; omega]
              rw [dec_run (L.length - 1) (by omega) ⟨idx, pv⟩ hcoh S b n]
              rw [show (L.length - 1) + 1 = L.length from by omega]
            · -- a run of j < 62 pixels followed by a differing pixel
              have hjlt : leadCount pv L < L.length :=
                lt_of_le_of_ne (leadCount_le pv L) hall
              obtain ⟨q, M, hqm, hq⟩ := drop_leadCount pv L hjlt
              have htake : L.take (leadCount pv L) = List.replicate (leadCount pv L) pv :=
                take_leadCount pv L _ le_rfl
              have hsplit : L = List.replicate (leadCount pv L) pv ++ (q :: M) := by
                conv_lhs => rw [← List.take_append_drop (leadCount pv L) L]
                rw [htake, hqm]
              have hlenM : (leadCount pv L) + (q :: M).length = L.length := by
                have := congrArg List.length hsplit
                simp only [List.length_append, List.length_replicate] at this
                omega
              have hbq : q.Bounded := by
                refine hb q ?_
                rw [hsplit]
                simp
              have hbM : ∀ px ∈ M, px.Bounded := by
                intro px hpx
                refine hb px ?_
                rw [hsplit]
                simp [hpx]
              have single := enc_dec_single q pv idx M.isEmpty hq hbq hbpv hbidx
              have hco : (encStep q M.isEmpty ⟨idx, 0, pv⟩).1 =
                  ⟨(encStep q M.isEmpty ⟨idx, 0, pv⟩).1.index, 0, q⟩ :=
                encCore_eta _ _ _ single.1 single.2.1
              have ihM := ih M (encStep q M.isEmpty ⟨idx, 0, pv⟩).1.index q
                (by simp only [List.length_cons] at hlenM; omega) hbM
                single.2.2.1 hbq single.2.2.2.1
              rw [hsplit, enc_replicate_mid pv (leadCount pv L) 0 ⟨idx, 0, pv⟩ (q :: M) rfl rfl
                (by omega) (by simp)]
              show SimOk (List.replicate (leadCount pv L) pv ++ (q :: M)) idx pv
                (encodePixelsC M (encStep q M.isEmpty ⟨idx, 0 + leadCount pv L, pv⟩).1).1
                ((encStep q M.isEmpty ⟨idx, 0 + leadCount pv L, pv⟩).2 ++
                  (encodePixelsC M (encStep q M.isEmpty ⟨idx, 0 + leadCount pv L, pv⟩).1).2)
              rw [show (⟨idx, 0 + leadCount pv L, pv⟩ : EncCore) = ⟨idx, leadCount pv L, pv⟩
                from by rw [Nat.zero_add]]
              rw [encStep_flush q pv idx M.isEmpty (leadCount pv L) hq (by omega)]
              rw [hco]
              refine ⟨ihM.1, ihM.2.1, ihM.2.2.1, ihM.2.2.2.1, ?_⟩
              intro S b n
              rw [List.cons_append, serializeChunks_cons]
              rw [show serializeChunk (Chunk.run (leadCount pv L - 1)) =
                  [192 + (leadCount pv L - 1)] from rfl]
              rw [show ([192 + (leadCount pv L - 1)] ++
                    serializeChunks ((encStep q M.isEmpty ⟨idx, 0, pv⟩).2 ++
                      (encodePixelsC M ⟨(encStep q M.isEmpty ⟨idx, 0, pv⟩).1.index, 0, q⟩).2)) ++ S =
                  (192 + (leadCount pv L - 1)) ::
                    (serializeChunks ((encStep q M.isEmpty ⟨idx, 0, pv⟩).2 ++
                      (encodePixelsC M ⟨(encStep q M.isEmpty ⟨idx, 0, pv⟩).1.index, 0, q⟩).2) ++ S)
                from by simp]
              rw [show (([192 + (leadCount pv L - 1)] : List Nat) ++
                    serializeChunks ((encStep q M.isEmpty ⟨idx, 0, pv⟩).2 ++
                      (encodePixelsC M ⟨(encStep q M.isEmpty ⟨idx, 0, pv⟩).1.index, 0, q⟩).2)).length + b =
                  1 + ((serializeChunks ((encStep q M.isEmpty ⟨idx, 0, pv⟩).2 ++
                    (encodePixelsC M ⟨(encStep q M.isEmpty ⟨idx, 0, pv⟩).1.index, 0, q⟩).2)).length + b)
                from by simp only [List.length_append, List.length_cons, List.length_nil]; omega]
              rw [show (List.replicate (leadCount pv L) pv ++ (q :: M)).length + n =
                  (leadCount pv L - 1) + 1 + ((q :: M).length + n) from by
                simp only [List.length_append, List.length_replicate]; omega]
              rw [dec_run (leadCount pv L - 1) (by omega) ⟨idx, pv⟩ hcoh _ _ _]
              rw [show leadCount pv L - 1 + 1 = leadCount pv L from by omega]
              rw [serializeChunks_append, List.append_assoc]
              rw [show (serializeChunks (encStep q M.isEmpty ⟨idx, 0, pv⟩).2 ++
                    serializeChunks (encodePixelsC M ⟨(encStep q M.isEmpty ⟨idx, 0, pv⟩).1.index, 0, q⟩).2).length + b =
                  (serializeChunks (encStep q M.isEmpty ⟨idx, 0, pv⟩).2).length +
                    ((serializeChunks (encodePixelsC M ⟨(encStep q M.isEmpty ⟨idx, 0, pv⟩).1.index, 0, q⟩).2).length + b)
                from by simp only [List.length_append]; omega]
              rw [show (q :: M).length + n = 1 + (M.length + n) from by
                simp only [List.length_cons]; omega]
              rw [single.2.2.2.2]
              rw [ihM.2.2.2.2]
              simp [List.cons_append, List.append_assoc]


/-! ## Top-level round trip -/

/-- On a valid descriptor, `qoi_encode` is the serialised chunk-level
encoder between header and trailer. -/
theorem encode_valid_eq (data : List Nat) (desc : QoiDesc)
    (hw : desc.width ≠ 0) (hh : desc.height ≠ 0)
    (hch : desc.channels = 3 ∨ desc.channels = 4) (hcs : desc.colorspace ≤ 2) :
    qoi_encode data desc = some (
      ([113, 111, 105, 102] ++ be32 desc.width ++ be32 desc.height ++
        [desc.channels, desc.colorspace]) ++
      serializeChunks (encodePixelsC
        (pixelsFrom data desc.channels (desc.width * desc.height) 0 0)
        ⟨zeroIdx, 0, zeroPx⟩).2 ++ List.replicate 8 0) := by
  unfold qoi_encode
  rw [if_neg (by omega)]
  have h0 : (⟨zeroIdx, 0, zeroPx, []⟩ : EncState) =
      ⟨(⟨zeroIdx, 0, zeroPx⟩ : EncCore).index, (⟨zeroIdx, 0, zeroPx⟩ : EncCore).run,
        (⟨zeroIdx, 0, zeroPx⟩ : EncCore).px_prev, []⟩ := rfl
  rw [h0, encodeLoop_eq_chunks data desc.channels (desc.width * desc.height) 0
    ⟨zeroIdx, 0, zeroPx⟩ []]
  rfl


/-- Decoding a well-formed container whose header carries `w, h, chB,
csp` reduces to running the chunk loop over the payload. -/
theorem decode_encoded (w h chB csp ch : Nat) (S : List Nat)
    (hw : 1 ≤ w) (hw32 : w < 2 ^ 32) (hh : 1 ≤ h) (hh32 : h < 2 ^ 32)
    (hchB : chB = 3 ∨ chB = 4) (hcs : csp ≤ 2) (hch : ch = 3 ∨ ch = 4) :
    qoi_decode (([113, 111, 105, 102] ++ be32 w ++ be32 h ++ [chB, csp]) ++
        S ++ List.replicate 8 0) ch =
      some (⟨w, h, chB, csp⟩, flattenPx ch
        (decodeAux (S ++ List.replicate 8 0) S.length (w * h) 0 ⟨zeroIdx, zeroPx⟩).1) := by
  have hD : (([113, 111, 105, 102] ++ be32 w ++ be32 h ++ [chB, csp]) ++
      S ++ List.replicate 8 0) =
      113 :: 111 :: 105 :: 102 ::
      (w / 2 ^ 24 % 256) :: (w / 2 ^ 16 % 256) :: (w / 2 ^ 8 % 256) :: (w % 256) ::
      (h / 2 ^ 24 % 256) :: (h / 2 ^ 16 % 256) :: (h / 2 ^ 8 % 256) :: (h % 256) ::
      chB :: csp :: (S ++ List.replicate 8 0) := rfl
  rw [hD]
  unfold qoi_decode
  rw [if_neg (by omega)]
  have hlen : (113 :: 111 :: 105 :: 102 ::
      (w / 2 ^ 24 % 256) :: (w / 2 ^ 16 % 256) :: (w / 2 ^ 8 % 256) :: (w % 256) ::
      (h / 2 ^ 24 % 256) :: (h / 2 ^ 16 % 256) :: (h / 2 ^ 8 % 256) :: (h % 256) ::
      chB :: csp :: (S ++ List.replicate 8 0)).length = S.length + 22 := by
    simp [List.length_cons, List.length_append]
  rw [hlen, if_neg (by omega)]
  have hmagic : read32 (113 :: 111 :: 105 :: 102 ::
      (w / 2 ^ 24 % 256) :: (w / 2 ^ 16 % 256) :: (w / 2 ^ 8 % 256) :: (w % 256) ::
      (h / 2 ^ 24 % 256) :: (h / 2 ^ 16 % 256) :: (h / 2 ^ 8 % 256) :: (h % 256) ::
      chB :: csp :: (S ++ List.replicate 8 0)) 0 = qoiMagic := by
    unfold read32 qoiMagic
    norm_num [List.getD]
  have hrw : read32 (113 :: 111 :: 105 :: 102 ::
      (w / 2 ^ 24 % 256) :: (w / 2 ^ 16 % 256) :: (w / 2 ^ 8 % 256) :: (w % 256) ::
      (h / 2 ^ 24 % 256) :: (h / 2 ^ 16 % 256) :: (h / 2 ^ 8 % 256) :: (h % 256) ::
      chB :: csp :: (S ++ List.replicate 8 0)) 4 = w := by
    unfold read32
    norm_num [List.getD]
    omega
  have hrh : read32 (113 :: 111 :: 105 :: 102 ::
      (w / 2 ^ 24 % 256) :: (w / 2 ^ 16 % 256) :: (w / 2 ^ 8 % 256) :: (w % 256) ::
      (h / 2 ^ 24 % 256) :: (h / 2 ^ 16 % 256) :: (h / 2 ^ 8 % 256) :: (h % 256) ::
      chB :: csp :: (S ++ List.replicate 8 0)) 8 = h := by
    unfold read32
    norm_num [List.getD]
    omega
  have hgch : (113 :: 111 :: 105 :: 102 ::
      (w / 2 ^ 24 % 256) :: (w / 2 ^ 16 % 256) :: (w / 2 ^ 8 % 256) :: (w % 256) ::
      (h / 2 ^ 24 % 256) :: (h / 2 ^ 16 % 256) :: (h / 2 ^ 8 % 256) :: (h % 256) ::
      chB :: csp :: (S ++ List.replicate 8 0)).getD 12 0 % 256 = chB := by
    norm_num [List.getD]
    omega
  have hgcs : (113 :: 111 :: 105 :: 102 ::
      (w / 2 ^ 24 % 256) :: (w / 2 ^ 16 % 256) :: (w / 2 ^ 8 % 256) :: (w % 256) ::
      (h / 2 ^ 24 % 256) :: (h / 2 ^ 16 % 256) :: (h / 2 ^ 8 % 256) :: (h % 256) ::
      chB :: csp :: (S ++ List.replicate 8 0)).getD 13 0 % 256 = csp := by
    norm_num [List.getD]
    omega
  rw [hmagic, hrw, hrh, hgch, hgcs]
  rw [if_neg (by
    intro hc
    rcases hc with hc | hc | hc | hc | hc | hc <;> omega)]
  rw [if_neg (by omega : ¬ ch = 0)]
  have hloop := decodeLoop_eq_aux (113 :: 111 :: 105 :: 102 ::
      (w / 2 ^ 24 % 256) :: (w / 2 ^ 16 % 256) :: (w / 2 ^ 8 % 256) :: (w % 256) ::
      (h / 2 ^ 24 % 256) :: (h / 2 ^ 16 % 256) :: (h / 2 ^ 8 % 256) :: (h % 256) ::
      chB :: csp :: (S ++ List.replicate 8 0)) (S.length + 22 - 8) (w * h) initDecState
  have hdrop : (113 :: 111 :: 105 :: 102 ::
      (w / 2 ^ 24 % 256) :: (w / 2 ^ 16 % 256) :: (w / 2 ^ 8 % 256) :: (w % 256) ::
      (h / 2 ^ 24 % 256) :: (h / 2 ^ 16 % 256) :: (h / 2 ^ 8 % 256) :: (h % 256) ::
      chB :: csp :: (S ++ List.replicate 8 0)).drop initDecState.p = S ++ List.replicate 8 0 := rfl
  have hbud : S.length + 22 - 8 - initDecState.p = S.length := by
    show S.length + 22 - 8 - 14 = S.length
    omega
  rw [hdrop, hbud] at hloop
  dsimp only
  rw [hloop.1]
  rfl


/-- Writing back the pixels the 4-channel encoder read reproduces the
input buffer. -/
theorem flattenPx4_pixelsFrom (data : List Nat) (hb : ∀ x ∈ data, x < 256) :
    ∀ (n pos a : Nat), data.length = pos + 4 * n →
      flattenPx 4 (pixelsFrom data 4 n pos a) = data.drop pos := by
  intro n
  induction n with
  | zero =>
      intro pos a hlen
      have : pos = data.length := by omega
      rw [this, List.drop_length]
      rfl
  | succ n ih =>
      intro pos a hlen
      have h0 : pos < data.length := by omega
      have h1 : pos + 1 < data.length := by omega
      have h2 : pos + 2 < data.length := by omega
      have h3 : pos + 3 < data.length := by omega
      have hunf : pixelsFrom data 4 (n + 1) pos a =
          readPxAt data 4 pos a :: pixelsFrom data 4 n (pos + 4) (readPxAt data 4 pos a).a := by
        rw [pixelsFrom]
      rw [hunf]
      have hpx : readPxAt data 4 pos a =
          ⟨data.getD pos 0, data.getD (pos + 1) 0, data.getD (pos + 2) 0,
            data.getD (pos + 3) 0⟩ := by
        unfold readPxAt
        rw [if_pos rfl]
        have e0 : data.getD pos 0 % 256 = data.getD pos 0 := by
          rw [List.getD_eq_getElem _ _ h0]
          exact Nat.mod_eq_of_lt (hb _ (List.getElem_mem h0))
        have e1 : data.getD (pos + 1) 0 % 256 = data.getD (pos + 1) 0 := by
          rw [List.getD_eq_getElem _ _ h1]
          exact Nat.mod_eq_of_lt (hb _ (List.getElem_mem h1))
        have e2 : data.getD (pos + 2) 0 % 256 = data.getD (pos + 2) 0 := by
          rw [List.getD_eq_getElem _ _ h2]
          exact Nat.mod_eq_of_lt (hb _ (List.getElem_mem h2))
        have e3 : data.getD (pos + 3) 0 % 256 = data.getD (pos + 3) 0 := by
          rw [List.getD_eq_getElem _ _ h3]
          exact Nat.mod_eq_of_lt (hb _ (List.getElem_mem h3))
        rw [e0, e1, e2, e3]
      rw [hpx]
      show data.getD pos 0 :: data.getD (pos + 1) 0 :: data.getD (pos + 2) 0 ::
          data.getD (pos + 3) 0 :: flattenPx 4 (pixelsFrom data 4 n (pos + 4) _) = _
      rw [ih (pos + 4) _ (by omega)]
      rw [List.drop_eq_getElem_cons h0, List.drop_eq_getElem_cons h1,
        List.drop_eq_getElem_cons h2, List.drop_eq_getElem_cons h3]
      rw [List.getD_eq_getElem _ _ h0, List.getD_eq_getElem _ _ h1,
        List.getD_eq_getElem _ _ h2, List.getD_eq_getElem _ _ h3]


/-- Writing back the pixels the 3-channel encoder read reproduces the
input buffer. -/
theorem flattenPx3_pixelsFrom (data : List Nat) (hb : ∀ x ∈ data, x < 256) :
    ∀ (n pos a : Nat), data.length = pos + 3 * n →
      flattenPx 3 (pixelsFrom data 3 n pos a) = data.drop pos := by
  intro n
  induction n with
  | zero =>
      intro pos a hlen
      have : pos = data.length := by omega
      rw [this, List.drop_length]
      rfl
  | succ n ih =>
      intro pos a hlen
      have h0 : pos < data.length := by omega
      have h1 : pos + 1 < data.length := by omega
      have h2 : pos + 2 < data.length := by omega
      have hunf : pixelsFrom data 3 (n + 1) pos a =
          readPxAt data 3 pos a :: pixelsFrom data 3 n (pos + 3) (readPxAt data 3 pos a).a := by
        rw [pixelsFrom]
      rw [hunf]
      have hpx : readPxAt data 3 pos a =
          ⟨data.getD pos 0, data.getD (pos + 1) 0, data.getD (pos + 2) 0, a⟩ := by
        unfold readPxAt
        rw [if_neg (by omega)]
        have e0 : data.getD pos 0 % 256 = data.getD pos 0 := by
          rw [List.getD_eq_getElem _ _ h0]
          exact Nat.mod_eq_of_lt (hb _ (List.getElem_mem h0))
        have e1 : data.getD (pos + 1) 0 % 256 = data.getD (pos + 1) 0 := by
          rw [List.getD_eq_getElem _ _ h1]
          exact Nat.mod_eq_of_lt (hb _ (List.getElem_mem h1))
        have e2 : data.getD (pos + 2) 0 % 256 = data.getD (pos + 2) 0 := by
          rw [List.getD_eq_getElem _ _ h2]
          exact Nat.mod_eq_of_lt (hb _ (List.getElem_mem h2))
        rw [e0, e1, e2]
      rw [hpx]
      show data.getD pos 0 :: data.getD (pos + 1) 0 :: data.getD (pos + 2) 0 ::
          flattenPx 3 (pixelsFrom data 3 n (pos + 3) _) = _
      rw [ih (pos + 3) _ (by omega)]
      rw [List.drop_eq_getElem_cons h0, List.drop_eq_getElem_cons h1,
        List.drop_eq_getElem_cons h2]
      rw [List.getD_eq_getElem _ _ h0, List.getD_eq_getElem _ _ h1,
        List.getD_eq_getElem _ _ h2]


/-- Running the decoder chunk loop over the encoder's chunk stream plus
the 8-byte trailer reproduces exactly the pixels the encoder read. -/
theorem decode_of_encoded_chunks (data : List Nat) (ch n : Nat) :
    (decodeAux (serializeChunks
        (encodePixelsC (pixelsFrom data ch n 0 0) ⟨zeroIdx, 0, zeroPx⟩).2 ++
        List.replicate 8 0)
      (serializeChunks
        (encodePixelsC (pixelsFrom data ch n 0 0) ⟨zeroIdx, 0, zeroPx⟩).2).length
      n 0 ⟨zeroIdx, zeroPx⟩).1 = pixelsFrom data ch n 0 0 := by
  have hb := pixelsFrom_bounded data ch n 0 0 (by omega)
  have hbz : ∀ i, (zeroIdx i).Bounded := fun i => by
    show (0 : Nat) < 256 ∧ (0 : Nat) < 256 ∧ (0 : Nat) < 256 ∧ (0 : Nat) < 256
    omega
  have hbp : zeroPx.Bounded := by
    show (0 : Nat) < 256 ∧ (0 : Nat) < 256 ∧ (0 : Nat) < 256 ∧ (0 : Nat) < 256
    omega
  have hsim := enc_dec_sim (pixelsFrom data ch n 0 0).length (pixelsFrom data ch n 0 0)
    zeroIdx zeroPx le_rfl hb hbz hbp rfl
  have heq := hsim.2.2.2.2 (List.replicate 8 0) 0 0
  set L := pixelsFrom data ch n 0 0 with hL
  have hn : n = L.length := (pixelsFrom_length data ch n 0 0).symm
  rw [hn]
  have h1 : (decodeAux (serializeChunks (encodePixelsC L ⟨zeroIdx, 0, zeroPx⟩).2 ++
      List.replicate 8 0)
      (serializeChunks (encodePixelsC L ⟨zeroIdx, 0, zeroPx⟩).2).length
      L.length 0 ⟨zeroIdx, zeroPx⟩).1 =
      L ++ (decodeAux (List.replicate 8 0) 0 0 0
        ⟨(encodePixelsC L ⟨zeroIdx, 0, zeroPx⟩).1.index,
          (encodePixelsC L ⟨zeroIdx, 0, zeroPx⟩).1.px_prev⟩).1 :=
    congrArg Prod.fst heq
  rw [h1, decodeAux_exhausted]
  simp


/-- Claim C1 (P1, round trip with 4 channels): for every 4-channel
descriptor with nonzero dimensions (32-bit, per the C `unsigned int`
fields) and valid colorspace, and every byte buffer of exactly
`width * height * 4` bytes, decoding the encoder output with
`channels = 4` succeeds and returns the original descriptor and the
original pixel bytes. -/
theorem encode_decode_roundtrip_rgba (data : List Nat) (desc : QoiDesc)
    (hch : desc.channels = 4) (hw : 1 ≤ desc.width) (hh : 1 ≤ desc.height)
    (hw32 : desc.width < 2 ^ 32) (hh32 : desc.height < 2 ^ 32)
    (hcs : desc.colorspace ≤ 1)
    (hlen : data.length = desc.width * desc.height * 4)
    (hdb : ∀ x ∈ data, x < 256) :
    ∃ out, qoi_encode data desc = some out ∧
      qoi_decode out 4 = some (desc, data) := by
  obtain ⟨w, h, chv, cs⟩ := desc
  simp only at hch hw hh hw32 hh32 hcs hlen
  subst hch
  refine ⟨_, encode_valid_eq data ⟨w, h, 4, cs⟩ (by show w ≠ 0; omega)
    (by show h ≠ 0; omega) (Or.inr rfl) (by show cs ≤ 2; omega), ?_⟩
  rw [decode_encoded w h 4 cs 4 _ hw hw32 hh hh32 (Or.inr rfl) (by omega) (Or.inr rfl)]
  rw [decode_of_encoded_chunks data 4 (w * h)]
  rw [flattenPx4_pixelsFrom data hdb (w * h) 0 0 (by omega)]
  rw [List.drop_zero]


/-- Claim C4 (P2, round trip with 3 channels): for every 3-channel
descriptor with nonzero 32-bit dimensions and valid colorspace, and
every byte buffer of exactly `width * height * 3` bytes, decoding the
encoder output with `channels = 3` succeeds and returns the original
descriptor and the original pixel bytes. -/
theorem encode_decode_roundtrip_rgb (data : List Nat) (desc : QoiDesc)
    (hch : desc.channels = 3) (hw : 1 ≤ desc.width) (hh : 1 ≤ desc.height)
    (hw32 : desc.width < 2 ^ 32) (hh32 : desc.height < 2 ^ 32)
    (hcs : desc.colorspace ≤ 1)
    (hlen : data.length = desc.width * desc.height * 3)
    (hdb : ∀ x ∈ data, x < 256) :
    ∃ out, qoi_encode data desc = some out ∧
      qoi_decode out 3 = some (desc, data) := by
  obtain ⟨w, h, chv, cs⟩ := desc
  simp only at hch hw hh hw32 hh32 hcs hlen
  subst hch
  refine ⟨_, encode_valid_eq data ⟨w, h, 3, cs⟩ (by show w ≠ 0; omega)
    (by show h ≠ 0; omega) (Or.inl rfl) (by show cs ≤ 2; omega), ?_⟩
  rw [decode_encoded w h 3 cs 3 _ hw hw32 hh hh32 (Or.inl rfl) (by omega) (Or.inl rfl)]
  rw [decode_of_encoded_chunks data 3 (w * h)]
  rw [flattenPx3_pixelsFrom data hdb (w * h) 0 0 (by omega)]
  rw [List.drop_zero]


theorem flattenPx4_length : ∀ l : List Rgba, (flattenPx 4 l).length = 4 * l.length := by
  intro l
  induction l with
  | nil => rfl
  | cons px l ih =>
      show (flattenPx 4 (px :: l)).length = 4 * (l.length + 1)
      rw [flattenPx, if_pos rfl]
      simp only [List.length_append, ih, List.length_cons]
      simp
      omega


theorem flattenPx3_length (ch : Nat) (h : ch ≠ 4) :
    ∀ l : List Rgba, (flattenPx ch l).length = 3 * l.length := by
  intro l
  induction l with
  | nil => rfl
  | cons px l ih =>
      show (flattenPx ch (px :: l)).length = 3 * (l.length + 1)
      rw [flattenPx, if_neg h]
      simp only [List.length_append, ih, List.length_cons]
      simp
      omega


/-- In the 4-channel output buffer, the alpha byte of pixel `i` sits at
offset `4 * i + 3` and equals that pixel's alpha component. -/
theorem flattenPx4_alpha : ∀ (l : List Rgba), (∀ px ∈ l, px.a = 0) →
    ∀ i, i < l.length → (flattenPx 4 l).getD (4 * i + 3) 1 = 0 := by
  intro l
  induction l with
  | nil => intro _ i hi; simp at hi
  | cons px l ih =>
      intro hz i hi
      have hflat : flattenPx 4 (px :: l) =
          px.r :: px.g :: px.b :: px.a :: flattenPx 4 l := by
        rw [flattenPx, if_pos rfl]
        rfl
      rw [hflat]
      cases i with
      | zero =>
          show (px.r :: px.g :: px.b :: px.a :: flattenPx 4 l).getD 3 1 = 0
          have : (px.r :: px.g :: px.b :: px.a :: flattenPx 4 l).getD 3 1 = px.a := rfl
          rw [this]
          exact hz px (by simp)
      | succ i =>
          rw [show 4 * (i + 1) + 3 = (4 * i + 3) + 1 + 1 + 1 + 1 from by omega]
          simp only [List.getD_cons_succ]
          exact ih (fun q hq => hz q (by simp [hq])) i (by simp at hi; omega)


/-- Claim C2, amended: encoding a 3-channel buffer and decoding with
`out_channels = 4` yields alpha 0 (not 255) at every pixel — this
codec starts the predictor at `{0,0,0,0}` and the 3-channel encoder
path never changes the tracked alpha. -/
theorem widen3_alpha_zero (data : List Nat) (desc : QoiDesc)
    (hch : desc.channels = 3) (hw : 1 ≤ desc.width) (hh : 1 ≤ desc.height)
    (hw32 : desc.width < 2 ^ 32) (hh32 : desc.height < 2 ^ 32)
    (hcs : desc.colorspace ≤ 1) :
    ∃ out pixels, qoi_encode data desc = some out ∧
      qoi_decode out 4 = some (desc, pixels) ∧
      ∀ i < desc.width * desc.height, pixels.getD (4 * i + 3) 1 = 0 := by
  obtain ⟨w, h, chv, cs⟩ := desc
  simp only at hch hw hh hw32 hh32 hcs
  subst hch
  refine ⟨_, flattenPx 4 (pixelsFrom data 3 (w * h) 0 0),
    encode_valid_eq data ⟨w, h, 3, cs⟩ (by show w ≠ 0; omega)
      (by show h ≠ 0; omega) (Or.inl rfl) (by show cs ≤ 2; omega), ?_, ?_⟩
  · rw [decode_encoded w h 3 cs 4 _ hw hw32 hh hh32 (Or.inl rfl) (by omega) (Or.inr rfl)]
    rw [decode_of_encoded_chunks data 3 (w * h)]
  · intro i hi
    refine flattenPx4_alpha _ (pixelsFrom_alpha3 data (w * h) 0 0) i ?_
    rw [pixelsFrom_length]
    exact hi


/-- Counterexample to claim C2 as stated: the 1×1 3-channel image with
pixel (10, 20, 30) encodes to an RGB chunk, and decoding with
`out_channels = 4` yields alpha 0, not 255, at the only pixel. -/
theorem widen3_alpha_counterexample :
    qoi_encode [10, 20, 30] ⟨1, 1, 3, 0⟩ = some [113, 111, 105, 102, 0, 0, 0, 1,
      0, 0, 0, 1, 3, 0, 254, 10, 20, 30, 0, 0, 0, 0, 0, 0, 0, 0] ∧
    qoi_decode [113, 111, 105, 102, 0, 0, 0, 1, 0, 0, 0, 1, 3, 0, 254, 10, 20, 30,
      0, 0, 0, 0, 0, 0, 0, 0] 4 = some (⟨1, 1, 3, 0⟩, [10, 20, 30, 0]) ∧
    ([10, 20, 30, 0] : List Nat).getD 3 1 ≠ 255 := by
  refine ⟨by decide, by decide, by decide⟩


/-! ## Colorspace validation (claim C3) -/

/-- Claim C3, amended: both operations reject a colorspace byte greater
than 2 (the source checks `colorspace > 2`, not `> 1`): encoding fails
for every descriptor with `colorspace ≥ 3`, and decoding fails for
every input whose byte at offset 13 is `≥ 3`. -/
theorem colorspace_validation :
    (∀ (data : List Nat) (desc : QoiDesc),
      2 < desc.colorspace → qoi_encode data desc = none) ∧
    (∀ (data : List Nat) (ch : Nat),
      2 < data.getD 13 0 % 256 → qoi_decode data ch = none) := by
  constructor
  · intro data desc h
    unfold qoi_encode
    rw [if_pos (Or.inr (Or.inr (Or.inr (Or.inr h))))]
  · intro data ch h
    unfold qoi_decode
    by_cases h1 : ¬(ch = 0 ∨ ch = 3 ∨ ch = 4)
    · rw [if_pos h1]
    · rw [if_neg h1]
      by_cases h2 : data.length < 14 + 8
      · rw [if_pos h2]
      · rw [if_neg h2]
        dsimp only
        rw [if_pos (Or.inr (Or.inr (Or.inr (Or.inr (Or.inl h)))))]


/-- Counterexample to claim C3 as stated: colorspace value 2 is
accepted by both the encoder and the decoder of this source (the
validation threshold is `> 2`). -/
theorem colorspace_two_accepted :
    qoi_encode [0, 0, 0, 0] ⟨1, 1, 4, 2⟩ = some [113, 111, 105, 102, 0, 0, 0, 1,
      0, 0, 0, 1, 4, 2, 192, 0, 0, 0, 0, 0, 0, 0, 0] ∧
    qoi_decode [113, 111, 105, 102, 0, 0, 0, 1, 0, 0, 0, 1, 4, 2, 192,
      0, 0, 0, 0, 0, 0, 0, 0] 4 = some (⟨1, 1, 4, 2⟩, [0, 0, 0, 0]) := by
  exact ⟨by decide, by decide⟩


theorem encStep_run_le (px : Rgba) (b : Bool) (co : EncCore) (hco : co.run ≤ 61) :
    (encStep px b co).1.run ≤ 61 ∧
    ∀ k, Chunk.run k ∈ (encStep px b co).2 → k ≤ 61 := by
  unfold encStep
  dsimp only
  split_ifs <;> constructor
  all_goals first
    | (dsimp only; omega)
    | (intro k hk; simp at hk; omega)
    | (intro k hk; simp at hk)


theorem encodePixelsC_run_le :
    ∀ (L : List Rgba) (co : EncCore), co.run ≤ 61 →
      (encodePixelsC L co).1.run ≤ 61 ∧
      ∀ k, Chunk.run k ∈ (encodePixelsC L co).2 → k ≤ 61 := by
  intro L
  induction L with
  | nil =>
      intro co hco
      exact ⟨hco, by intro k hk; simp [encodePixelsC] at hk⟩
  | cons px l ih =>
      intro co hco
      have hstep := encStep_run_le px l.isEmpty co hco
      have hrest := ih (encStep px l.isEmpty co).1 hstep.1
      show (encodePixelsC l (encStep px l.isEmpty co).1).1.run ≤ 61 ∧
        ∀ k, Chunk.run k ∈ (encStep px l.isEmpty co).2 ++
          (encodePixelsC l (encStep px l.isEmpty co).1).2 → k ≤ 61
      refine ⟨hrest.1, ?_⟩
      intro k hk
      rw [List.mem_append] at hk
      rcases hk with hk | hk
      · exact hstep.2 k hk
      · exact hrest.2 k hk


/-- Claim C6 (P5/I5): on every accepted input the encoder's byte
stream is the serialisation of its chunk stream, and every
`QOI_OP_RUN` chunk in it has low-6-bit value at most 61; values 62 and
63 never occur. -/
theorem run_chunk_bounds (data : List Nat) (desc : QoiDesc)
    (hw : desc.width ≠ 0) (hh : desc.height ≠ 0)
    (hch : desc.channels = 3 ∨ desc.channels = 4) (hcs : desc.colorspace ≤ 2) :
    qoi_encode data desc = some (
      ([113, 111, 105, 102] ++ be32 desc.width ++ be32 desc.height ++
        [desc.channels, desc.colorspace]) ++
      serializeChunks (qoi_encode_chunks data desc) ++ List.replicate 8 0) ∧
    ∀ k, Chunk.run k ∈ qoi_encode_chunks data desc → k ≤ 61 := by
  refine ⟨encode_valid_eq data desc hw hh hch hcs, ?_⟩
  exact (encodePixelsC_run_le _ _ (by show (0 : Nat) ≤ 61; omega)).2


/-! ## Decoder index coherence (claim C7) -/

set_option maxHeartbeats 1000000 in
theorem decodeStep_coh (bytes : List Nat) (chunksLen : Nat) (s : DecState)
    (h : s.index (qoiHash s.px) = s.px) :
    (decodeStep bytes chunksLen s).index
        (qoiHash (decodeStep bytes chunksLen s).px) =
      (decodeStep bytes chunksLen s).px := by
  unfold decodeStep
  dsimp only
  split_ifs <;> first | exact updIdx_self .. | exact h

/-- Claim C7 (P6/I4): (1) after decoding any prefix, the index slot for
the current pixel holds the current pixel; (2) a RUN chunk leaves the
index array (and the pixel) unchanged — the slot it rewrites already
holds `px`. -/
theorem decoder_index_coherent :
    (∀ (bytes : List Nat) (chunksLen n : Nat),
      ((decodeLoop bytes chunksLen n initDecState).2).index
          (qoiHash ((decodeLoop bytes chunksLen n initDecState).2).px) =
        ((decodeLoop bytes chunksLen n initDecState).2).px) ∧
    (∀ (bytes : List Nat) (chunksLen : Nat) (s : DecState),
      s.index (qoiHash s.px) = s.px → s.run = 0 → s.p < chunksLen →
      bytes.getD s.p 0 % 256 ≠ 254 → bytes.getD s.p 0 % 256 ≠ 255 →
      bytes.getD s.p 0 % 256 / 64 = 3 →
      (decodeStep bytes chunksLen s).index = s.index ∧
      (decodeStep bytes chunksLen s).px = s.px) := by
  constructor
  · intro bytes chunksLen n
    have key : ∀ (m : Nat) (s : DecState), s.index (qoiHash s.px) = s.px →
        ((decodeLoop bytes chunksLen m s).2).index
            (qoiHash ((decodeLoop bytes chunksLen m s).2).px) =
          ((decodeLoop bytes chunksLen m s).2).px := by
      intro m
      induction m with
      | zero => intro s hs; exact hs
      | succ m ih =>
          intro s hs
          exact ih (decodeStep bytes chunksLen s) (decodeStep_coh bytes chunksLen s hs)
    exact key n initDecState rfl
  · intro bytes chunksLen s hcoh hrun hp h254 h255 htag
    unfold decodeStep
    rw [if_neg (by omega), if_pos hp]
    rw [if_neg h254, if_neg h255, if_neg (by omega), if_neg (by omega), if_neg (by omega)]
    exact ⟨by rw [show (⟨updIdx s.index (qoiHash s.px) s.px, s.px, bytes.getD s.p 0 % 256 % 64,
        s.p + 1⟩ : DecState).index = updIdx s.index (qoiHash s.px) s.px from rfl,
      updIdx_eq_of_hit _ _ _ hcoh], rfl⟩


/-! ## Truncation tolerance (claim C8) -/

theorem decodeLoop_length (bytes : List Nat) (chunksLen : Nat) :
    ∀ (n : Nat) (s : DecState), (decodeLoop bytes chunksLen n s).1.length = n := by
  intro n
  induction n with
  | zero => intro s; rfl
  | succ n ih =>
      intro s
      show ((decodeStep bytes chunksLen s).px ::
        (decodeLoop bytes chunksLen n (decodeStep bytes chunksLen s)).1).length = n + 1
      rw [List.length_cons, ih]


theorem flattenPx_length_34 (ch : Nat) (h : ch = 3 ∨ ch = 4) (l : List Rgba) :
    (flattenPx ch l).length = ch * l.length := by
  rcases h with h | h <;> subst h
  · exact flattenPx3_length 3 (by omega) l
  · exact flattenPx4_length l


/-- Claim C8: (1) once the cursor has reached `chunks_end`, every
remaining output pixel is a copy of the current `px` — this is not an
error; (2) on any input whose header passes validation, `qoi_decode`
succeeds and returns a pixel buffer of the full
`width * height * channels` size. -/
theorem truncation_tolerated :
    (∀ (bytes : List Nat) (chunksLen n : Nat) (s : DecState), chunksLen ≤ s.p →
      (decodeLoop bytes chunksLen n s).1 = List.replicate n s.px) ∧
    (∀ (data : List Nat) (ch : Nat),
      (ch = 0 ∨ ch = 3 ∨ ch = 4) → 14 + 8 ≤ data.length →
      read32 data 0 = qoiMagic → read32 data 4 ≠ 0 → read32 data 8 ≠ 0 →
      (data.getD 12 0 % 256 = 3 ∨ data.getD 12 0 % 256 = 4) →
      data.getD 13 0 % 256 ≤ 2 →
      ∃ pixels, qoi_decode data ch = some
          (⟨read32 data 4, read32 data 8, data.getD 12 0 % 256, data.getD 13 0 % 256⟩,
            pixels) ∧
        pixels.length = read32 data 4 * read32 data 8 *
          (if ch = 0 then data.getD 12 0 % 256 else ch)) := by
  constructor
  · intro bytes chunksLen n
    induction n with
    | zero => intro s _; rfl
    | succ n ih =>
        intro s hp
        have hprun : ¬ s.p < chunksLen := by omega
        show ((decodeStep bytes chunksLen s).px ::
          (decodeLoop bytes chunksLen n (decodeStep bytes chunksLen s)).1) = _
        by_cases hr : 0 < s.run
        · have hstep : decodeStep bytes chunksLen s = ⟨s.index, s.px, s.run - 1, s.p⟩ := by
            unfold decodeStep
            rw [if_pos hr]
          rw [hstep, ih ⟨s.index, s.px, s.run - 1, s.p⟩ hp]
          rfl
        · have hstep : decodeStep bytes chunksLen s = s := by
            unfold decodeStep
            rw [if_neg hr, if_neg hprun]
          rw [hstep, ih s hp]
          rfl
  · intro data ch hch hsz hm hw hh hchB hcs
    unfold qoi_decode
    rw [if_neg (by simp only [not_not]; exact hch), if_neg (by omega)]
    dsimp only
    rw [if_neg (by
      intro hc
      rcases hc with hc | hc | hc | hc | hc | hc <;> omega)]
    refine ⟨_, rfl, ?_⟩
    have hch' : (if ch = 0 then data.getD 12 0 % 256 else ch) = 3 ∨
        (if ch = 0 then data.getD 12 0 % 256 else ch) = 4 := by
      split
      · exact hchB
      · rcases hch with hc | hc | hc <;> omega
    rw [flattenPx_length_34 _ hch', decodeLoop_length]
    ring


/-! ## Encoder output size bound (claim C9) -/

theorem encStep_size (px : Rgba) (b : Bool) (co : EncCore) (hco : co.run ≤ 61) :
    (encStep px b co).1.run ≤ 61 ∧
    (encStep px b co).1.px_prev = px ∧
    (serializeChunks (encStep px b co).2).length + (encStep px b co).1.run ≤
      co.run + 5 ∧
    (px.a = co.px_prev.a →
      (serializeChunks (encStep px b co).2).length + (encStep px b co).1.run ≤
        co.run + 4) := by
  unfold encStep
  dsimp only
  split_ifs
  all_goals refine ⟨?_, ?_, ?_, fun ha => ?_⟩
  all_goals simp only [serializeChunks_append, serializeChunks_cons, serializeChunks_nil,
    serializeChunk, List.length_append, List.length_cons, List.length_nil, List.nil_append]
  all_goals first | rfl | omega | exact absurd ha (by assumption)


theorem encodePixelsC_size :
    ∀ (L : List Rgba) (co : EncCore), co.run ≤ 61 →
      ((serializeChunks (encodePixelsC L co).2).length + (encodePixelsC L co).1.run ≤
        co.run + 5 * L.length) ∧
      ((∀ px ∈ L, px.a = co.px_prev.a) →
        (serializeChunks (encodePixelsC L co).2).length + (encodePixelsC L co).1.run ≤
          co.run + 4 * L.length) := by
  intro L
  induction L with
  | nil =>
      intro co hco
      constructor
      · show (serializeChunks []).length + co.run ≤ co.run + 5 * 0
        simp [serializeChunks_nil]
      · intro _
        show (serializeChunks []).length + co.run ≤ co.run + 4 * 0
        simp [serializeChunks_nil]
  | cons px l ih =>
      intro co hco
      have hstep := encStep_size px l.isEmpty co hco
      have hrest := ih (encStep px l.isEmpty co).1 hstep.1
      show (serializeChunks ((encStep px l.isEmpty co).2 ++
          (encodePixelsC l (encStep px l.isEmpty co).1).2)).length +
          (encodePixelsC l (encStep px l.isEmpty co).1).1.run ≤
            co.run + 5 * (px :: l).length ∧
        ((∀ q ∈ px :: l, q.a = co.px_prev.a) →
          (serializeChunks ((encStep px l.isEmpty co).2 ++
            (encodePixelsC l (encStep px l.isEmpty co).1).2)).length +
            (encodePixelsC l (encStep px l.isEmpty co).1).1.run ≤
              co.run + 4 * (px :: l).length)
      rw [serializeChunks_append, List.length_append]
      constructor
      · have := hrest.1
        have := hstep.2.2.1
        simp only [List.length_cons]
        omega
      · intro haL
        have ha : px.a = co.px_prev.a := haL px (by simp)
        have haRest : ∀ q ∈ l, q.a = (encStep px l.isEmpty co).1.px_prev.a := by
          intro q hq
          rw [hstep.2.1]
          rw [haL q (by simp [hq]), ha]
        have h1 := hrest.2 haRest
        have h2 := hstep.2.2.2 ha
        simp only [List.length_cons]
        omega


/-- Claim C9: the total number of bytes the encoder writes — header,
chunks and trailer — never exceeds
`width * height * (channels + 1) + 14 + 8`. -/
theorem encode_size_bound (data : List Nat) (desc : QoiDesc) (out : List Nat)
    (h : qoi_encode data desc = some out) :
    out.length ≤ desc.width * desc.height * (desc.channels + 1) + 14 + 8 := by
  unfold qoi_encode at h
  by_cases hv : desc.width = 0 ∨ desc.height = 0 ∨ desc.channels < 3 ∨
      4 < desc.channels ∨ 2 < desc.colorspace
  · rw [if_pos hv] at h
    cases h
  · rw [if_neg hv] at h
    dsimp only at h
    have h0 : (⟨zeroIdx, 0, zeroPx, []⟩ : EncState) =
        ⟨(⟨zeroIdx, 0, zeroPx⟩ : EncCore).index, (⟨zeroIdx, 0, zeroPx⟩ : EncCore).run,
          (⟨zeroIdx, 0, zeroPx⟩ : EncCore).px_prev, []⟩ := rfl
    rw [h0, encodeLoop_eq_chunks data desc.channels (desc.width * desc.height) 0
      ⟨zeroIdx, 0, zeroPx⟩ []] at h
    have hbig := Option.some.inj h
    subst hbig
    rw [List.length_append, List.length_append]
    have hhd : (([113, 111, 105, 102] ++ be32 desc.width ++ be32 desc.height ++
        [desc.channels, desc.colorspace]) : List Nat).length = 14 := by
      simp [be32]
    have hpad : (List.replicate 8 0 : List Nat).length = 8 := by simp
    rw [hhd, hpad]
    show 14 + (serializeChunks (encodePixelsC (pixelsFrom data desc.channels
        (desc.width * desc.height) 0 0) ⟨zeroIdx, 0, zeroPx⟩).2).length + 8 ≤
      desc.width * desc.height * (desc.channels + 1) + 14 + 8
    have hpl : (pixelsFrom data desc.channels (desc.width * desc.height) 0 0).length =
        desc.width * desc.height := pixelsFrom_length ..
    have hsz := encodePixelsC_size
      (pixelsFrom data desc.channels (desc.width * desc.height) 0 0)
      ⟨zeroIdx, 0, zeroPx⟩ (by show (0 : Nat) ≤ 61; omega)
    by_cases hch3 : desc.channels = 3
    · have halpha : ∀ px ∈ pixelsFrom data desc.channels (desc.width * desc.height) 0 0,
          px.a = (⟨zeroIdx, 0, zeroPx⟩ : EncCore).px_prev.a := by
        rw [hch3]
        exact pixelsFrom_alpha3 data (desc.width * desc.height) 0 0
      have hb4 : (serializeChunks (encodePixelsC (pixelsFrom data desc.channels
          (desc.width * desc.height) 0 0) ⟨zeroIdx, 0, zeroPx⟩).2).length +
          (encodePixelsC (pixelsFrom data desc.channels
            (desc.width * desc.height) 0 0) ⟨zeroIdx, 0, zeroPx⟩).1.run ≤
          0 + 4 * (pixelsFrom data desc.channels
            (desc.width * desc.height) 0 0).length := hsz.2 halpha
      rw [hpl] at hb4
      rw [hch3] at hb4 ⊢
      omega
    · have hch4 : desc.channels = 4 := by omega
      have hb5 : (serializeChunks (encodePixelsC (pixelsFrom data desc.channels
          (desc.width * desc.height) 0 0) ⟨zeroIdx, 0, zeroPx⟩).2).length +
          (encodePixelsC (pixelsFrom data desc.channels
            (desc.width * desc.height) 0 0) ⟨zeroIdx, 0, zeroPx⟩).1.run ≤
          0 + 5 * (pixelsFrom data desc.channels
            (desc.width * desc.height) 0 0).length := hsz.1
      rw [hpl] at hb5
      rw [hch4] at hb5 ⊢
      omega


theorem stepReads_lt (bytes : List Nat) (chunksLen size : Nat) (s : DecState)
    (hcl : chunksLen = size - 8) (hsz : 8 ≤ size) :
    ∀ pos ∈ stepReads bytes chunksLen s, pos < size := by
  intro pos hpos
  unfold stepReads at hpos
  by_cases hr : 0 < s.run
  · rw [if_pos hr] at hpos
    cases hpos
  · rw [if_neg hr] at hpos
    by_cases hp : s.p < chunksLen
    · rw [if_pos hp] at hpos
      dsimp only at hpos
      split_ifs at hpos <;> simp only [List.mem_cons, List.not_mem_nil, or_false] at hpos <;>
        omega
    · rw [if_neg hp] at hpos
      cases hpos


/-- Claim C10: with `size ≥ 22` and a validated header, every read the
chunk-decoding loop of `qoi_decode` performs is at an index strictly
below `size = data.length`: the per-pixel `p < chunks_len` check plus
the 8-byte trailer margin keep even the largest (5-byte RGBA) chunk
read in bounds. -/
theorem decoder_reads_in_bounds (data : List Nat) (ch : Nat)
    (hch : ch = 0 ∨ ch = 3 ∨ ch = 4) (hsz : 14 + 8 ≤ data.length)
    (hm : read32 data 0 = qoiMagic) (hw : read32 data 4 ≠ 0) (hh : read32 data 8 ≠ 0)
    (hchB : data.getD 12 0 % 256 = 3 ∨ data.getD 12 0 % 256 = 4)
    (hcs : data.getD 13 0 % 256 ≤ 2) :
    ∀ pos ∈ loopReads data (data.length - 8) (read32 data 4 * read32 data 8)
      initDecState, pos < data.length := by
  have key : ∀ (n : Nat) (s : DecState),
      ∀ pos ∈ loopReads data (data.length - 8) n s, pos < data.length := by
    intro n
    induction n with
    | zero => intro s pos hpos; cases hpos
    | succ n ih =>
        intro s pos hpos
        unfold loopReads at hpos
        rw [List.mem_append] at hpos
        rcases hpos with hpos | hpos
        · exact stepReads_lt data (data.length - 8) data.length s rfl (by omega) pos hpos
        · exact ih (decodeStep data (data.length - 8) s) pos hpos
  exact key (read32 data 4 * read32 data 8) initDecState


theorem zstep_best_mono (s : Nat × Nat) (x : Nat) : s.2 ≤ (zstep s x).2 := by
  unfold zstep
  split <;> simp <;> omega


theorem zfold_best_mono (l : List Nat) :
    ∀ s : Nat × Nat, s.2 ≤ (l.foldl zstep s).2 := by
  induction l with
  | nil => intro s; exact le_rfl
  | cons x xs ih =>
      intro s
      exact le_trans (zstep_best_mono s x) (ih (zstep s x))


theorem zfold_replicate_eq (k : Nat) :
    ∀ s : Nat × Nat, (List.replicate k 0).foldl zstep s =
      (s.1 + k, if k = 0 then s.2 else max (s.1 + k) s.2) := by
  induction k with
  | zero => intro s; simp
  | succ k ih =>
      intro s
      rw [List.replicate_succ, List.foldl_cons, ih (zstep s 0)]
      unfold zstep
      rw [if_pos rfl]
      refine Prod.ext ?_ ?_
      · simp
        omega
      · by_cases hk : k = 0 <;> simp [hk] <;> omega


theorem zfold_replicate_zero (k : Nat) (s : Nat × Nat) :
    k ≤ ((List.replicate k 0).foldl zstep s).2 := by
  rw [zfold_replicate_eq k s]
  by_cases hk : k = 0 <;> simp [hk] <;> omega


/-- If `l` contains `k` consecutive zero bytes then the zero-run scan
of `l` finds a run of length at least `k`. -/
theorem infix_le_zscan (k : Nat) (l : List Nat)
    (h : List.IsInfix (List.replicate k 0) l) : k ≤ (zscan l).2 := by
  obtain ⟨s, t, hst⟩ := h
  subst hst
  unfold zscan
  rw [List.foldl_append, List.foldl_append]
  exact le_trans (zfold_replicate_zero k (List.foldl zstep (0, 0) s))
    (zfold_best_mono t _)


theorem zfold_one_nonzero (zs : Nat × Nat) (x : Nat) (hx : x ≠ 0) :
    List.foldl zstep zs [x] = (0, zs.2) := by
  simp only [List.foldl_cons, List.foldl_nil]
  unfold zstep
  rw [if_neg hx]


theorem zfold_one_zero (zs : Nat × Nat) :
    List.foldl zstep zs [0] = (zs.1 + 1, max (zs.1 + 1) zs.2) := by
  simp only [List.foldl_cons, List.foldl_nil]
  unfold zstep
  rw [if_pos rfl]


theorem zfold_luma (zs : Nat × Nat) (g b2 : Nat) :
    (List.foldl zstep zs [128 + g, b2]).1 ≤ 1 ∧
    (List.foldl zstep zs [128 + g, b2]).2 ≤ max zs.2 1 := by
  simp only [List.foldl_cons, List.foldl_nil]
  unfold zstep
  split_ifs <;> simp_all <;> omega


theorem zfold_rgb (zs : Nat × Nat) (r g b : Nat) :
    (List.foldl zstep zs [254, r, g, b]).1 ≤ 3 ∧
    (List.foldl zstep zs [254, r, g, b]).2 ≤ max zs.2 3 := by
  simp only [List.foldl_cons, List.foldl_nil]
  unfold zstep
  split_ifs <;> simp_all <;> omega


theorem zfold_rgba (zs : Nat × Nat) (r g b a : Nat) :
    (List.foldl zstep zs [255, r, g, b, a]).1 ≤ 4 ∧
    (List.foldl zstep zs [255, r, g, b, a]).2 ≤ max zs.2 4 ∧
    ((List.foldl zstep zs [255, r, g, b, a]).1 = 4 →
      r = 0 ∧ g = 0 ∧ b = 0 ∧ a = 0) := by
  simp only [List.foldl_cons, List.foldl_nil]
  unfold zstep
  split_ifs <;> refine ⟨?_, ?_, ?_⟩ <;> simp_all <;> omega


theorem zinv_encStep0 (px : Rgba) (b : Bool) (co : EncCore) (zs : Nat × Nat)
    (hco : co.run = 0) (h1 : ¬ px = co.px_prev) (hinv : ZInv co zs) :
    ZInv (encStep px b co).1
      (List.foldl zstep zs (serializeChunks (encStep px b co).2)) := by
  obtain ⟨hbest, hcur, hcond⟩ := hinv
  have hco' : co = ⟨co.index, 0, co.px_prev⟩ := encCore_eta co 0 co.px_prev hco rfl
  by_cases h3 : co.index (qoiHash px) = px
  · have hstep : encStep px b co = (⟨co.index, 0, px⟩, [.index (qoiHash px)]) := by
      rw [hco']
      unfold encStep
      dsimp only
      rw [if_neg h1, if_neg (lt_irrefl 0), if_pos h3]
      rfl
    rw [hstep]
    rw [show serializeChunks [Chunk.index (qoiHash px)] = [qoiHash px] from rfl]
    by_cases hz : qoiHash px = 0
    · have hlt : zs.1 ≤ 3 := by
        by_contra hge
        have h4 : zs.1 = 4 := by omega
        have hc := hcond h4
        rw [hz] at h3
        exact h1 (h3.symm.trans hc)
      rw [hz, zfold_one_zero zs]
      refine ⟨by simp; omega, by simp; omega, fun h4 => ?_⟩
      show co.index 0 = px
      rw [← hz]
      exact h3
    · rw [zfold_one_nonzero zs _ hz]
      exact ⟨hbest, by omega, by omega⟩
  · by_cases ha : px.a = co.px_prev.a
    · by_cases hd : -3 < toSigned (sub8 px.r co.px_prev.r) ∧
          toSigned (sub8 px.r co.px_prev.r) < 2 ∧
          -3 < toSigned (sub8 px.g co.px_prev.g) ∧
          toSigned (sub8 px.g co.px_prev.g) < 2 ∧
          -3 < toSigned (sub8 px.b co.px_prev.b) ∧
          toSigned (sub8 px.b co.px_prev.b) < 2
      · have hstep : encStep px b co = (⟨updIdx co.index (qoiHash px) px, 0, px⟩,
            [Chunk.diff (toSigned (sub8 px.r co.px_prev.r) + 2).toNat
              (toSigned (sub8 px.g co.px_prev.g) + 2).toNat
              (toSigned (sub8 px.b co.px_prev.b) + 2).toNat]) := by
          rw [hco']
          unfold encStep
          dsimp only
          rw [if_neg h1, if_neg (lt_irrefl 0), if_neg h3, if_pos ha, if_pos hd]
          rfl
        rw [hstep]
        rw [show serializeChunks [Chunk.diff (toSigned (sub8 px.r co.px_prev.r) + 2).toNat
            (toSigned (sub8 px.g co.px_prev.g) + 2).toNat
            (toSigned (sub8 px.b co.px_prev.b) + 2).toNat] =
          [64 + (toSigned (sub8 px.r co.px_prev.r) + 2).toNat * 16 +
            (toSigned (sub8 px.g co.px_prev.g) + 2).toNat * 4 +
            (toSigned (sub8 px.b co.px_prev.b) + 2).toNat] from rfl]
        rw [zfold_one_nonzero zs _ (by omega)]
        exact ⟨hbest, by omega, by omega⟩
      · by_cases hl : -9 < toSigned (sub8 (sub8 px.r co.px_prev.r) (sub8 px.g co.px_prev.g)) ∧
            toSigned (sub8 (sub8 px.r co.px_prev.r) (sub8 px.g co.px_prev.g)) < 8 ∧
            -33 < toSigned (sub8 px.g co.px_prev.g) ∧
            toSigned (sub8 px.g co.px_prev.g) < 32 ∧
            -9 < toSigned (sub8 (sub8 px.b co.px_prev.b) (sub8 px.g co.px_prev.g)) ∧
            toSigned (sub8 (sub8 px.b co.px_prev.b) (sub8 px.g co.px_prev.g)) < 8
        · have hstep : encStep px b co = (⟨updIdx co.index (qoiHash px) px, 0, px⟩,
              [Chunk.luma (toSigned (sub8 px.g co.px_prev.g) + 32).toNat
                (toSigned (sub8 (sub8 px.r co.px_prev.r) (sub8 px.g co.px_prev.g)) + 8).toNat
                (toSigned (sub8 (sub8 px.b co.px_prev.b) (sub8 px.g co.px_prev.g)) + 8).toNat]) := by
            rw [hco']
            unfold encStep
            dsimp only
            rw [if_neg h1, if_neg (lt_irrefl 0), if_neg h3, if_pos ha, if_neg hd, if_pos hl]
            rfl
          rw [hstep]
          rw [show serializeChunks [Chunk.luma (toSigned (sub8 px.g co.px_prev.g) + 32).toNat
              (toSigned (sub8 (sub8 px.r co.px_prev.r) (sub8 px.g co.px_prev.g)) + 8).toNat
              (toSigned (sub8 (sub8 px.b co.px_prev.b) (sub8 px.g co.px_prev.g)) + 8).toNat] =
            [128 + (toSigned (sub8 px.g co.px_prev.g) + 32).toNat,
              (toSigned (sub8 (sub8 px.r co.px_prev.r) (sub8 px.g co.px_prev.g)) + 8).toNat * 16 +
              (toSigned (sub8 (sub8 px.b co.px_prev.b) (sub8 px.g co.px_prev.g)) + 8).toNat]
            from rfl]
          have hlu := zfold_luma zs (toSigned (sub8 px.g co.px_prev.g) + 32).toNat
            ((toSigned (sub8 (sub8 px.r co.px_prev.r) (sub8 px.g co.px_prev.g)) + 8).toNat * 16 +
              (toSigned (sub8 (sub8 px.b co.px_prev.b) (sub8 px.g co.px_prev.g)) + 8).toNat)
          exact ⟨by omega, by omega, by omega⟩
        · have hstep : encStep px b co = (⟨updIdx co.index (qoiHash px) px, 0, px⟩,
              [Chunk.rgb px.r px.g px.b]) := by
            rw [hco']
            unfold encStep
            dsimp only
            rw [if_neg h1, if_neg (lt_irrefl 0), if_neg h3, if_pos ha, if_neg hd, if_neg hl]
            rfl
          rw [hstep]
          rw [show serializeChunks [Chunk.rgb px.r px.g px.b] =
            [254, px.r, px.g, px.b] from rfl]
          have hr := zfold_rgb zs px.r px.g px.b
          exact ⟨by omega, by omega, by omega⟩
    · have hstep : encStep px b co = (⟨updIdx co.index (qoiHash px) px, 0, px⟩,
          [Chunk.rgba px.r px.g px.b px.a]) := by
        rw [hco']
        unfold encStep
        dsimp only
        rw [if_neg h1, if_neg (lt_irrefl 0), if_neg h3, if_neg ha]
        rfl
      rw [hstep]
      rw [show serializeChunks [Chunk.rgba px.r px.g px.b px.a] =
        [255, px.r, px.g, px.b, px.a] from rfl]
      have hr := zfold_rgba zs px.r px.g px.b px.a
      refine ⟨by omega, by omega, fun h4 => ?_⟩
      obtain ⟨hz1, hz2, hz3, hz4⟩ := hr.2.2 h4
      have hpz : px = ⟨0, 0, 0, 0⟩ := by
        cases px
        simp only at hz1 hz2 hz3 hz4
        subst hz1 hz2 hz3 hz4
        rfl
      show updIdx co.index (qoiHash px) px 0 = px
      rw [hpz]
      rfl


theorem zinv_encStep (px : Rgba) (b : Bool) (co : EncCore) (zs : Nat × Nat)
    (hrun : co.run ≤ 61) (hinv : ZInv co zs) :
    ZInv (encStep px b co).1
      (List.foldl zstep zs (serializeChunks (encStep px b co).2)) := by
  obtain ⟨hbest, hcur, hcond⟩ := hinv
  by_cases h1 : px = co.px_prev
  · by_cases h2 : co.run + 1 = 62 ∨ b = true
    · have hstep : encStep px b co = (⟨co.index, 0, px⟩, [.run (co.run + 1 - 1)]) := by
        unfold encStep
        rw [if_pos h1, if_pos h2]
      rw [hstep]
      rw [show serializeChunks [Chunk.run (co.run + 1 - 1)] = [192 + (co.run + 1 - 1)]
        from rfl]
      rw [zfold_one_nonzero zs _ (by omega)]
      exact ⟨hbest, by omega, by omega⟩
    · have hstep : encStep px b co = (⟨co.index, co.run + 1, px⟩, []) := by
        unfold encStep
        rw [if_pos h1, if_neg h2]
      rw [hstep]
      rw [show serializeChunks [] = [] from rfl, List.foldl_nil]
      refine ⟨hbest, hcur, fun h4 => ?_⟩
      show co.index 0 = px
      rw [h1]
      exact hcond h4
  · by_cases hr : 0 < co.run
    · have hco' : co = ⟨co.index, co.run, co.px_prev⟩ := encCore_eta co co.run co.px_prev rfl rfl
      have hflush : encStep px b co =
          ((encStep px b ⟨co.index, 0, co.px_prev⟩).1,
            Chunk.run (co.run - 1) :: (encStep px b ⟨co.index, 0, co.px_prev⟩).2) := by
        conv_lhs => rw [hco']
        exact encStep_flush px co.px_prev co.index b co.run h1 hr
      rw [hflush]
      rw [serializeChunks_cons]
      rw [show serializeChunk (Chunk.run (co.run - 1)) = [192 + (co.run - 1)] from rfl]
      rw [List.foldl_append, zfold_one_nonzero zs _ (by omega)]
      have hinv0 : ZInv (⟨co.index, 0, co.px_prev⟩ : EncCore) (0, zs.2) := by
        refine ⟨hbest, by omega, by omega⟩
      exact zinv_encStep0 px b ⟨co.index, 0, co.px_prev⟩ (0, zs.2) rfl h1 hinv0
    · have hco0 : co.run = 0 := by omega
      exact zinv_encStep0 px b co zs hco0 h1 ⟨hbest, hcur, hcond⟩


theorem zinv_encodePixelsC :
    ∀ (L : List Rgba) (co : EncCore) (zs : Nat × Nat), co.run ≤ 61 → ZInv co zs →
      ZInv (encodePixelsC L co).1
        (List.foldl zstep zs (serializeChunks (encodePixelsC L co).2)) := by
  intro L
  induction L with
  | nil =>
      intro co zs _ h2
      show ZInv co (List.foldl zstep zs (serializeChunks []))
      rw [show serializeChunks [] = [] from rfl, List.foldl_nil]
      exact h2
  | cons px l ih =>
      intro co zs h1 h2
      show ZInv (encodePixelsC l (encStep px l.isEmpty co).1).1
        (List.foldl zstep zs (serializeChunks ((encStep px l.isEmpty co).2 ++
          (encodePixelsC l (encStep px l.isEmpty co).1).2)))
      rw [serializeChunks_append, List.foldl_append]
      exact ih (encStep px l.isEmpty co).1 _
        (encStep_run_le px l.isEmpty co h1).1
        (zinv_encStep px l.isEmpty co zs h1 h2)


theorem zfold_4bytes (zs : Nat × Nat) (b0 b1 b2 b3 : Nat)
    (hnz : ¬(b0 = 0 ∧ b1 = 0 ∧ b2 = 0 ∧ b3 = 0)) (hc : zs.1 ≤ 3) (hb : zs.2 ≤ 6) :
    (List.foldl zstep zs [b0, b1, b2, b3]).1 ≤ 3 ∧
    (List.foldl zstep zs [b0, b1, b2, b3]).2 ≤ 6 := by
  simp only [List.foldl_cons, List.foldl_nil]
  unfold zstep
  split_ifs <;> simp_all <;> omega


/-- The 14-byte header never contains an excessive zero run: its scan
ends with a trailing run of at most 1 (only the colorspace byte may be
zero last) and a longest run of at most 6 (at most three trailing zero
bytes of the width field followed by at most three leading zero bytes
of the height field). -/
theorem zscan_header (w h chB cs : Nat) (hw : 1 ≤ w) (hw32 : w < 2 ^ 32)
    (hh : 1 ≤ h) (hh32 : h < 2 ^ 32) (hchB : chB = 3 ∨ chB = 4) :
    (zscan ([113, 111, 105, 102] ++ be32 w ++ be32 h ++ [chB, cs])).1 ≤ 1 ∧
    (zscan ([113, 111, 105, 102] ++ be32 w ++ be32 h ++ [chB, cs])).2 ≤ 6 := by
  unfold zscan
  rw [List.foldl_append, List.foldl_append, List.foldl_append]
  have hmagic : List.foldl zstep (0, 0) [113, 111, 105, 102] = (0, 0) := rfl
  rw [hmagic]
  rw [show be32 w = [w / 2 ^ 24 % 256, w / 2 ^ 16 % 256, w / 2 ^ 8 % 256, w % 256]
    from rfl]
  rw [show be32 h = [h / 2 ^ 24 % 256, h / 2 ^ 16 % 256, h / 2 ^ 8 % 256, h % 256]
    from rfl]
  have hwnz : ¬(w / 2 ^ 24 % 256 = 0 ∧ w / 2 ^ 16 % 256 = 0 ∧ w / 2 ^ 8 % 256 = 0 ∧
      w % 256 = 0) := by omega
  have hhnz : ¬(h / 2 ^ 24 % 256 = 0 ∧ h / 2 ^ 16 % 256 = 0 ∧ h / 2 ^ 8 % 256 = 0 ∧
      h % 256 = 0) := by omega
  have hw4 := zfold_4bytes (0, 0) _ _ _ _ hwnz (by omega) (by omega)
  have hh4 := zfold_4bytes _ _ _ _ _ hhnz hw4.1 hw4.2
  have htail : ∀ zs : Nat × Nat, zs.2 ≤ 6 →
      (List.foldl zstep zs [chB, cs]).1 ≤ 1 ∧ (List.foldl zstep zs [chB, cs]).2 ≤ 6 := by
    intro zs hzs
    simp only [List.foldl_cons, List.foldl_nil]
    unfold zstep
    split_ifs <;> simp_all <;> omega
  exact htail _ hh4.2


/-- Claim C5, amended: on every valid input the output of `qoi_encode`
is a stream followed by the eight-byte zero trailer, and the stream
before the trailer (header plus chunks) never contains a run of 8
consecutive zero bytes.  (The stream itself may end in zero bytes — see
the counterexample — so the output does not always end in *exactly*
eight zeros.) -/
theorem trailer_zero_runs (data : List Nat) (desc : QoiDesc)
    (hw : 1 ≤ desc.width) (hh : 1 ≤ desc.height)
    (hw32 : desc.width < 2 ^ 32) (hh32 : desc.height < 2 ^ 32)
    (hch : desc.channels = 3 ∨ desc.channels = 4) (hcs : desc.colorspace ≤ 2) :
    ∃ Y, qoi_encode data desc = some (Y ++ List.replicate 8 0) ∧
      ¬ List.IsInfix (List.replicate 8 0) Y := by
  refine ⟨([113, 111, 105, 102] ++ be32 desc.width ++ be32 desc.height ++
      [desc.channels, desc.colorspace]) ++
    serializeChunks (encodePixelsC
      (pixelsFrom data desc.channels (desc.width * desc.height) 0 0)
      ⟨zeroIdx, 0, zeroPx⟩).2, ?_, ?_⟩
  · rw [encode_valid_eq data desc (by omega) (by omega) hch hcs]
  · intro hinf
    have h8 := infix_le_zscan 8 _ hinf
    have hhd := zscan_header desc.width desc.height desc.channels desc.colorspace
      hw hw32 hh hh32 hch
    have hinv0 : ZInv (⟨zeroIdx, 0, zeroPx⟩ : EncCore)
        (zscan ([113, 111, 105, 102] ++ be32 desc.width ++ be32 desc.height ++
          [desc.channels, desc.colorspace])) := by
      refine ⟨hhd.2, by omega, by omega⟩
    have hfin := zinv_encodePixelsC
      (pixelsFrom data desc.channels (desc.width * desc.height) 0 0)
      ⟨zeroIdx, 0, zeroPx⟩ _ (by show (0 : Nat) ≤ 61; omega) hinv0
    have hzeq : zscan (([113, 111, 105, 102] ++ be32 desc.width ++ be32 desc.height ++
        [desc.channels, desc.colorspace]) ++
        serializeChunks (encodePixelsC
          (pixelsFrom data desc.channels (desc.width * desc.height) 0 0)
          ⟨zeroIdx, 0, zeroPx⟩).2) =
        List.foldl zstep (zscan ([113, 111, 105, 102] ++ be32 desc.width ++
          be32 desc.height ++ [desc.channels, desc.colorspace]))
          (serializeChunks (encodePixelsC
            (pixelsFrom data desc.channels (desc.width * desc.height) 0 0)
            ⟨zeroIdx, 0, zeroPx⟩).2) := by
      unfold zscan
      rw [List.foldl_append]
    rw [hzeq] at h8
    have := hfin.1
    omega


/-- Counterexample to claim C5 as stated: for the 1×2 four-channel
image with pixels (1,0,0,0), (0,0,0,0), the final chunk is
`QOI_OP_INDEX 0` — the single byte 0x00 — so the encoder output ends
with nine 0x00 bytes, not exactly eight. -/
theorem trailer_nine_zeros_counterexample :
    qoi_encode [1, 0, 0, 0, 0, 0, 0, 0] ⟨2, 1, 4, 0⟩ = some [113, 111, 105, 102,
      0, 0, 0, 2, 0, 0, 0, 1, 4, 0, 122, 0, 0, 0, 0, 0, 0, 0, 0, 0] ∧
    List.drop 15 [113, 111, 105, 102, 0, 0, 0, 2, 0, 0, 0, 1, 4, 0, 122, 0, 0, 0,
      0, 0, 0, 0, 0, 0] = List.replicate 9 0 := by
  exact ⟨by decide, by decide⟩


/-! ## Witnesses: each theorem instantiated at a concrete input -/

theorem encode_decode_roundtrip_rgba_witness :
    ∃ out, qoi_encode [1, 2, 3, 4] ⟨1, 1, 4, 0⟩ = some out ∧
      qoi_decode out 4 = some (⟨1, 1, 4, 0⟩, [1, 2, 3, 4]) :=
  encode_decode_roundtrip_rgba [1, 2, 3, 4] ⟨1, 1, 4, 0⟩ (by decide) (by decide)
    (by decide) (by decide) (by decide) (by decide) (by decide) (by decide)


theorem encode_decode_roundtrip_rgb_witness :
    ∃ out, qoi_encode [10, 20, 30] ⟨1, 1, 3, 0⟩ = some out ∧
      qoi_decode out 3 = some (⟨1, 1, 3, 0⟩, [10, 20, 30]) :=
  encode_decode_roundtrip_rgb [10, 20, 30] ⟨1, 1, 3, 0⟩ (by decide) (by decide)
    (by decide) (by decide) (by decide) (by decide) (by decide) (by decide)


theorem widen3_alpha_zero_witness :
    ∃ out pixels, qoi_encode [10, 20, 30] ⟨1, 1, 3, 0⟩ = some out ∧
      qoi_decode out 4 = some (⟨1, 1, 3, 0⟩, pixels) ∧
      ∀ i < (⟨1, 1, 3, 0⟩ : QoiDesc).width * (⟨1, 1, 3, 0⟩ : QoiDesc).height,
        pixels.getD (4 * i + 3) 1 = 0 :=
  widen3_alpha_zero [10, 20, 30] ⟨1, 1, 3, 0⟩ (by decide) (by decide) (by decide)
    (by decide) (by decide) (by decide)


theorem colorspace_validation_witness :
    qoi_encode [0, 0, 0, 0] ⟨1, 1, 4, 3⟩ = none ∧
    qoi_decode [113, 111, 105, 102, 0, 0, 0, 1, 0, 0, 0, 1, 4, 3, 192,
      0, 0, 0, 0, 0, 0, 0, 0] 4 = none :=
  ⟨colorspace_validation.1 [0, 0, 0, 0] ⟨1, 1, 4, 3⟩ (by decide),
    colorspace_validation.2 [113, 111, 105, 102, 0, 0, 0, 1, 0, 0, 0, 1, 4, 3, 192,
      0, 0, 0, 0, 0, 0, 0, 0] 4 (by decide)⟩


theorem trailer_zero_runs_witness :
    ∃ Y, qoi_encode [0, 0, 0, 0] ⟨1, 1, 4, 0⟩ = some (Y ++ List.replicate 8 0) ∧
      ¬ List.IsInfix (List.replicate 8 0) Y :=
  trailer_zero_runs [0, 0, 0, 0] ⟨1, 1, 4, 0⟩ (by decide) (by decide) (by decide)
    (by decide) (by decide) (by decide)


theorem run_chunk_bounds_witness :
    qoi_encode [0, 0, 0, 0] ⟨1, 1, 4, 0⟩ = some (
      ([113, 111, 105, 102] ++ be32 1 ++ be32 1 ++ [4, 0]) ++
      serializeChunks (qoi_encode_chunks [0, 0, 0, 0] ⟨1, 1, 4, 0⟩) ++
      List.replicate 8 0) ∧
    ∀ k, Chunk.run k ∈ qoi_encode_chunks [0, 0, 0, 0] ⟨1, 1, 4, 0⟩ → k ≤ 61 :=
  run_chunk_bounds [0, 0, 0, 0] ⟨1, 1, 4, 0⟩ (by decide) (by decide) (by decide)
    (by decide)


theorem decoder_index_coherent_witness :
    (decodeStep [200] 1 ⟨zeroIdx, zeroPx, 0, 0⟩).index = zeroIdx ∧
    (decodeStep [200] 1 ⟨zeroIdx, zeroPx, 0, 0⟩).px = zeroPx :=
  decoder_index_coherent.2 [200] 1 ⟨zeroIdx, zeroPx, 0, 0⟩ rfl rfl (by decide)
    (by decide) (by decide) (by decide)


theorem truncation_tolerated_witness :
    (decodeLoop [113, 111, 105, 102] 0 3 ⟨zeroIdx, ⟨9, 8, 7, 6⟩, 0, 14⟩).1 =
      List.replicate 3 ⟨9, 8, 7, 6⟩ ∧
    ∃ pixels, qoi_decode [113, 111, 105, 102, 0, 0, 0, 1, 0, 0, 0, 1, 4, 0, 192,
        0, 0, 0, 0, 0, 0, 0, 0] 4 =
      some (⟨1, 1, 4, 0⟩, pixels) ∧ pixels.length = 1 * 1 * 4 := by
  refine ⟨truncation_tolerated.1 [113, 111, 105, 102] 0 3 ⟨zeroIdx, ⟨9, 8, 7, 6⟩, 0, 14⟩
    (by decide), ?_⟩
  have h := truncation_tolerated.2 [113, 111, 105, 102, 0, 0, 0, 1, 0, 0, 0, 1, 4, 0,
    192, 0, 0, 0, 0, 0, 0, 0, 0] 4 (by decide) (by decide) (by decide) (by decide)
    (by decide) (by decide) (by decide)
  revert h
  norm_num [read32]


theorem encode_size_bound_witness :
    ([113, 111, 105, 102, 0, 0, 0, 1, 0, 0, 0, 1, 4, 0, 192,
      0, 0, 0, 0, 0, 0, 0, 0] : List Nat).length ≤ 1 * 1 * (4 + 1) + 14 + 8 :=
  encode_size_bound [0, 0, 0, 0] ⟨1, 1, 4, 0⟩ _ (by decide)


theorem decoder_reads_in_bounds_witness :
    (14 : Nat) < ([113, 111, 105, 102, 0, 0, 0, 1, 0, 0, 0, 1, 4, 0, 192,
        0, 0, 0, 0, 0, 0, 0, 0] : List Nat).length :=
  decoder_reads_in_bounds [113, 111, 105, 102, 0, 0, 0, 1, 0, 0, 0, 1, 4, 0, 192,
      0, 0, 0, 0, 0, 0, 0, 0] 4
    (by decide) (by decide) (by decide) (by decide) (by decide) (by decide) (by decide)
    14 (by decide)

end Qoi

